import Mathlib

/-!
# Distributed key-value store: store engine, persistence, membership and dispatcher

A shallow embedding of `src/kv_store.c` and of `handle_client` and `replicate_to_nodes`
of `src/kv_server.c` (with the types of `src/kv_store.h`).

* A C string is the list of its bytes before the terminating NUL.
* The slot array is a list of `KeyValuePair`; `capacity` is its length.
* `pthread_mutex_t lock` is a held/free flag.  The mutex is created with default
  attributes, so it is not recursive: locking it while it is held never returns.
  A call that never returns has the result `none`.
* The data directory is the list of its files in `readdir` order; a file is the list
  of the fixed-size records written to it.  `time(NULL)` is the argument `now` of
  every call that reads the clock.  Disk operations are taken to succeed.
-/

namespace KV

/-! ## Data model (kv_store.h) -/

/-- The bytes of a C string, terminator excluded. -/
abbrev CStr := List Nat

def MAX_KEY_SIZE : Nat := 128

def MAX_VALUE_SIZE : Nat := 1024

def SNAPSHOT_THRESHOLD : Int := 100

inductive OperationCode where
  | OP_GET
  | OP_PUT
  | OP_DELETE
  | OP_REPLICATE
  | OP_NODE_JOIN
  | OP_NODE_LEAVE
  | OP_LIST_KEYS
deriving DecidableEq, Repr

structure KeyValuePair where
  key : CStr
  value : CStr
  valid : Bool
deriving DecidableEq, Repr

structure LogEntry where
  op_code : OperationCode
  timestamp : Int
  key : CStr
  value : CStr
deriving DecidableEq, Repr

/-- One fixed-size record of a file: the `int` that heads a snapshot, a slot image,
or a log entry. -/
inductive Record where
  | count (n : Int)
  | pair (p : KeyValuePair)
  | entry (e : LogEntry)
deriving DecidableEq, Repr

/-- The files of the data directory, in the order `readdir` yields them. -/
abbrev Dir := List (List Char × List Record)

structure KVStore where
  data : List KeyValuePair
  size : Int
  lock : Bool
  data_dir : List Char
  op_count : Int
  log_file : Option (List Char)
  persistence_enabled : Bool
deriving DecidableEq, Repr

/-- The field `capacity`: the number of slots allocated for `data`. -/
def KVStore.capacity (s : KVStore) : Int := s.data.length

/-! ## C library -/

/-- The text `strncpy(dst, src, n - 1); dst[n - 1] = 0` leaves in a field of `n` bytes. -/
def strncpy_terminated (src : CStr) (n : Nat) : CStr := src.take (n - 1)

/-- Locking a held mutex never returns. -/
def pthread_mutex_lock (s : KVStore) : Option KVStore :=
  if s.lock then none else some { s with lock := true }

def pthread_mutex_unlock (s : KVStore) : KVStore := { s with lock := false }

/-- Test `strncmp(name, pre, strlen(pre)) == 0`. -/
def strncmp_eq : List Char → List Char → Bool
  | [], _ => true
  | _ :: _, [] => false
  | p :: ps, c :: cs => p == c && strncmp_eq ps cs

/-- Test `strstr(hay, needle) != NULL`. -/
def strstr_found : List Char → List Char → Bool
  | [], needle => needle.isEmpty
  | c :: cs, needle => strncmp_eq needle (c :: cs) || strstr_found cs needle

def atol_digits : List Char → Int → Int
  | [], acc => acc
  | c :: cs, acc => if c.isDigit then atol_digits cs (acc * 10 + ((c.toNat : Int) - 48)) else acc

/-- The C predicate `isspace`: space, and the controls from tab to carriage return. -/
def isspace (c : Char) : Bool := c.toNat == 32 || (9 ≤ c.toNat && c.toNat ≤ 13)

def LONG_MAX : Int := 9223372036854775807

def LONG_MIN : Int := -9223372036854775808

/-- The C function `atol`: blanks, an optional sign, then the leading decimal digits.  It
is `strtol` in base 10, which gives `LONG_MAX` or `LONG_MIN` for a number that a `long`
of 64 bits does not hold. -/
def atol (s : List Char) : Int :=
  match s.dropWhile isspace with
  | '-' :: cs => max (- atol_digits cs 0) LONG_MIN
  | '+' :: cs => min (atol_digits cs 0) LONG_MAX
  | cs => min (atol_digits cs 0) LONG_MAX

/-- The conversion `%ld`. -/
def ltoa (n : Int) : List Char :=
  if n < 0 then '-' :: Nat.toDigits 10 n.natAbs else Nat.toDigits 10 n.toNat

/-- Open for appending (`"a+"`): the file is created empty when it is missing. -/
def fopen_append (d : Dir) (name : List Char) : Dir :=
  if d.any (fun f => f.1 == name) then d else d ++ [(name, [])]

/-- Open for writing (`"wb"`), write `content`, close: an existing file is replaced. -/
def write_file (d : Dir) (name : List Char) (content : List Record) : Dir :=
  if d.any (fun f => f.1 == name) then
    d.map (fun f => if f.1 == name then (f.1, content) else f)
  else d ++ [(name, content)]

/-- Append one record at the end of the file `name` (`fwrite` on a handle in append mode). -/
def fwrite (d : Dir) (name : List Char) (r : Record) : Dir :=
  d.map (fun f => if f.1 == name then (f.1, f.2 ++ [r]) else f)

/-- The records a reader gets from the file `name`. -/
def read_file (d : Dir) (name : List Char) : List Record :=
  match d.find? (fun f => f.1 == name) with
  | some f => f.2
  | none => []

/-! ## Store engine (kv_store.c) -/

/-- The store `kv_store_init` returns when both allocations succeed.  The key and value
bytes of the slots, which `malloc` leaves unspecified, are taken empty: no function reads
them before a put has written them. -/
def kv_store_init (capacity : Nat) : KVStore :=
  { data := List.replicate capacity { key := [], value := [], valid := false }
    size := 0
    lock := false
    data_dir := "./data".toList
    op_count := 0
    log_file := none
    persistence_enabled := false }

def snapshot_name (now : Int) : List Char :=
  "snapshot_".toList ++ ltoa now ++ ".dat".toList

def rotated_log_name (now : Int) : List Char :=
  "operations_".toList ++ ltoa now ++ ".log".toList

def kv_store_create_snapshot (now : Int) (d : Dir) (s : KVStore) :
    Option (Bool × KVStore × Dir) :=
  if !s.persistence_enabled then some (false, s, d)
  else
    match pthread_mutex_lock s with
    | none => none
    | some s1 =>
      let d1 := write_file d (snapshot_name now)
        (Record.count s1.size :: (s1.data.filter (fun p => p.valid)).map Record.pair)
      let d2 := fopen_append d1 (rotated_log_name now)
      let s2 := { s1 with log_file := some (rotated_log_name now) }
      some (true, pthread_mutex_unlock s2, d2)

def kv_store_log_operation (now : Int) (d : Dir) (s : KVStore) (op : OperationCode)
    (key : CStr) (value : Option CStr) : Option (Bool × KVStore × Dir) :=
  match s.log_file with
  | none => some (false, s, d)
  | some f =>
    if !s.persistence_enabled then some (false, s, d)
    else
      let entry : LogEntry :=
        { op_code := op
          timestamp := now
          key := strncpy_terminated key MAX_KEY_SIZE
          value := match value with
            | some v => strncpy_terminated v MAX_VALUE_SIZE
            | none => [] }
      let d1 := fwrite d f (Record.entry entry)
      let s1 := { s with op_count := s.op_count + 1 }
      if s1.op_count ≥ SNAPSHOT_THRESHOLD then
        match kv_store_create_snapshot now d1 s1 with
        | none => none
        | some (_, s2, d2) => some (true, { s2 with op_count := 0 }, d2)
      else some (true, s1, d1)

/-- The statement `if (store->persistence_enabled) kv_store_log_operation(...)`. -/
def log_if_enabled (now : Int) (d : Dir) (s : KVStore) (op : OperationCode)
    (key : CStr) (value : Option CStr) : Option (KVStore × Dir) :=
  if s.persistence_enabled then
    match kv_store_log_operation now d s op key value with
    | none => none
    | some (_, s1, d1) => some (s1, d1)
  else some (s, d)

/-- First loop of `kv_store_put`: the first valid slot whose key is `key` gets the value. -/
def put_existing : List KeyValuePair → CStr → CStr → Option (List KeyValuePair)
  | [], _, _ => none
  | p :: rest, key, value =>
    if p.valid && p.key == key then
      some ({ p with value := strncpy_terminated value MAX_VALUE_SIZE } :: rest)
    else (put_existing rest key value).map (fun r => p :: r)

/-- Second loop of `kv_store_put`: the first slot that is not valid gets key and value. -/
def put_empty : List KeyValuePair → CStr → CStr → Option (List KeyValuePair)
  | [], _, _ => none
  | p :: rest, key, value =>
    if !p.valid then
      some ({ key := strncpy_terminated key MAX_KEY_SIZE
              value := strncpy_terminated value MAX_VALUE_SIZE
              valid := true } :: rest)
    else (put_empty rest key value).map (fun r => p :: r)

def kv_store_put (now : Int) (d : Dir) (s : KVStore) (key value : CStr) :
    Option (Bool × KVStore × Dir) :=
  match pthread_mutex_lock s with
  | none => none
  | some s1 =>
    match put_existing s1.data key value with
    | some data1 =>
      match log_if_enabled now d { s1 with data := data1 } OperationCode.OP_PUT key (some value) with
      | none => none
      | some (s2, d2) => some (true, pthread_mutex_unlock s2, d2)
    | none =>
      if s1.size ≥ s1.capacity then some (false, pthread_mutex_unlock s1, d)
      else
        match put_empty s1.data key value with
        | some data1 =>
          match log_if_enabled now d { s1 with data := data1, size := s1.size + 1 }
              OperationCode.OP_PUT key (some value) with
          | none => none
          | some (s2, d2) => some (true, pthread_mutex_unlock s2, d2)
        | none => some (false, pthread_mutex_unlock s1, d)

/-- The loop of `kv_store_get`: the value field of the first valid slot whose key is `key`. -/
def get_scan : List KeyValuePair → CStr → Option CStr
  | [], _ => none
  | p :: rest, key => if p.valid && p.key == key then some p.value else get_scan rest key

/-- The result is the returned flag and the caller's buffer `value` after the call; the
store is left as it was, its mutex released. -/
def kv_store_get (s : KVStore) (key : CStr) (value : CStr) : Option (Bool × CStr) :=
  match pthread_mutex_lock s with
  | none => none
  | some s1 =>
    match get_scan s1.data key with
    | some v => some (true, v.take MAX_VALUE_SIZE)
    | none => some (false, value)

/-- The loop of `kv_store_delete`: the first valid slot whose key is `key` is marked
not valid. -/
def delete_scan : List KeyValuePair → CStr → Option (List KeyValuePair)
  | [], _ => none
  | p :: rest, key =>
    if p.valid && p.key == key then some ({ p with valid := false } :: rest)
    else (delete_scan rest key).map (fun r => p :: r)

def kv_store_delete (now : Int) (d : Dir) (s : KVStore) (key : CStr) :
    Option (Bool × KVStore × Dir) :=
  match pthread_mutex_lock s with
  | none => none
  | some s1 =>
    match delete_scan s1.data key with
    | some data1 =>
      match log_if_enabled now d { s1 with data := data1, size := s1.size - 1 }
          OperationCode.OP_DELETE key none with
      | none => none
      | some (s2, d2) => some (true, pthread_mutex_unlock s2, d2)
    | none => some (false, pthread_mutex_unlock s1, d)

/-- The loop of `kv_store_list_keys` from slot `i` on, `buffer` holding `pos` bytes. -/
def list_keys_loop : List KeyValuePair → Int → Int → CStr → CStr
  | [], _, _, buffer => buffer
  | p :: rest, buffer_size, pos, buffer =>
    if pos < buffer_size - 1 then
      if p.valid then
        let remaining := buffer_size - pos - 1
        let key_len : Int := p.key.length
        if remaining ≥ key_len + 1 then
          list_keys_loop rest buffer_size (pos + (key_len + 1)) (buffer ++ (p.key ++ [10]))
        else buffer
      else list_keys_loop rest buffer_size pos buffer
    else buffer

/-- The result is the text in `buffer` after the call. -/
def kv_store_list_keys (s : KVStore) (buffer : CStr) (buffer_size : Int) : Option CStr :=
  if buffer_size ≤ 0 then some buffer
  else
    match pthread_mutex_lock s with
    | none => none
    | some s1 => some (list_keys_loop s1.data buffer_size 0 [])

/-! ## Persistence layer (kv_store.c) -/

def find_latest_snapshot_loop : List (List Char) → Int → Option (List Char) → Option (List Char)
  | [], _, latest_snapshot => latest_snapshot
  | d_name :: rest, latest_time, latest_snapshot =>
    if strncmp_eq "snapshot_".toList d_name && strstr_found d_name ".dat".toList then
      let snapshot_time := atol (d_name.drop 9)
      if snapshot_time > latest_time then
        find_latest_snapshot_loop rest snapshot_time (some d_name)
      else find_latest_snapshot_loop rest latest_time latest_snapshot
    else find_latest_snapshot_loop rest latest_time latest_snapshot

def find_latest_snapshot (d : Dir) : Option (List Char) :=
  find_latest_snapshot_loop (d.map (fun f => f.1)) 0 none

def find_newer_logs (d : Dir) (after_time : Int) : List (List Char) :=
  (d.map (fun f => f.1)).filter (fun d_name =>
    strncmp_eq "operations_".toList d_name && strstr_found d_name ".log".toList
      && decide (atol (d_name.drop 11) ≥ after_time))

/-- The slot images a reader gets one after the other until a read fails. -/
def leading_pairs : List Record → List KeyValuePair
  | Record.pair p :: rest => p :: leading_pairs rest
  | _ => []

/-- The log entries a reader gets one after the other until a read fails. -/
def leading_entries : List Record → List LogEntry
  | Record.entry e :: rest => e :: leading_entries rest
  | _ => []

/-- The inner loop of recovery: copy the slot image into the first slot that is not
valid. -/
def insert_first_empty : List KeyValuePair → KeyValuePair → Option (List KeyValuePair)
  | [], _ => none
  | q :: rest, p =>
    if !q.valid then some (p :: rest) else (insert_first_empty rest p).map (fun r => q :: r)

def load_pair (s : KVStore) (p : KeyValuePair) : KVStore :=
  match insert_first_empty s.data p with
  | some data1 => { s with data := data1, size := s.size + 1 }
  | none => s

/-- Reading a snapshot file: the count, then that many slot images. -/
def load_snapshot (s : KVStore) : List Record → KVStore
  | Record.count num_entries :: rest =>
    ((leading_pairs rest).take num_entries.toNat).foldl load_pair s
  | _ => s

/-- The `switch` of the replay loop. -/
def replay_entry (now : Int) (w : KVStore × Dir) (e : LogEntry) : Option (KVStore × Dir) :=
  match e.op_code with
  | OperationCode.OP_PUT =>
    match kv_store_put now w.2 w.1 e.key e.value with
    | none => none
    | some (_, s1, d1) => some (s1, d1)
  | OperationCode.OP_DELETE =>
    match kv_store_delete now w.2 w.1 e.key with
    | none => none
    | some (_, s1, d1) => some (s1, d1)
  | _ => some w

def replay_entries (now : Int) : List LogEntry → KVStore × Dir → Option (KVStore × Dir)
  | [], w => some w
  | e :: rest, w =>
    match replay_entry now w e with
    | none => none
    | some w1 => replay_entries now rest w1

/-- The loop over the log files; a file is read as it is when it is opened. -/
def replay_files (now : Int) : List (List Char) → KVStore × Dir → Option (KVStore × Dir)
  | [], w => some w
  | name :: rest, w =>
    match replay_entries now (leading_entries (read_file w.2 name)) w with
    | none => none
    | some w1 => replay_files now rest w1

def kv_store_recover_from_logs (now : Int) (d : Dir) (s : KVStore) :
    Option (Bool × KVStore × Dir) :=
  if !s.persistence_enabled then some (false, s, d)
  else
    let loaded : KVStore × Int :=
      match find_latest_snapshot d with
      | some latest_snapshot =>
        (load_snapshot s (read_file d latest_snapshot), atol (latest_snapshot.drop 9))
      | none => (s, 0)
    match replay_files now (find_newer_logs d loaded.2) (loaded.1, d) with
    | none => none
    | some (s1, d1) => some (true, s1, d1)

def kv_store_enable_persistence (now : Int) (d : Dir) (s : KVStore) (data_dir : List Char) :
    Option (Bool × KVStore × Dir) :=
  match pthread_mutex_lock s with
  | none => none
  | some s1 =>
    let d1 := fopen_append d "operations.log".toList
    let s2 := { s1 with
      data_dir := data_dir.take 255
      log_file := some "operations.log".toList
      persistence_enabled := true }
    match kv_store_recover_from_logs now d1 s2 with
    | none => none
    | some (_, s3, d2) => some (true, pthread_mutex_unlock s3, d2)

/-- The store is freed; what remains is the data directory. -/
def kv_store_destroy (now : Int) (d : Dir) (s : KVStore) : Option Dir :=
  if s.persistence_enabled then
    match kv_store_create_snapshot now d s with
    | none => none
    | some (_, _, d1) => some d1
  else some d

/-! ## Call sequences -/

/-- A mutating call on the store, with the clock reading it sees. -/
inductive Op where
  | put (now : Int) (key value : CStr)
  | delete (now : Int) (key : CStr)
deriving DecidableEq, Repr

def Op.key : Op → CStr
  | Op.put _ key _ => key
  | Op.delete _ key => key

def step (w : KVStore × Dir) : Op → Option (Bool × KVStore × Dir)
  | Op.put now key value => kv_store_put now w.2 w.1 key value
  | Op.delete now key => kv_store_delete now w.2 w.1 key

/-- Make the calls one after the other; `none` when one of them never returns. -/
def run : List Op → KVStore × Dir → Option (KVStore × Dir)
  | [], w => some w
  | o :: rest, w =>
    match step w o with
    | none => none
    | some (_, s1, d1) => run rest (s1, d1)

/-- Like `run`, keeping the flag each call returned. -/
def run_flags : List Op → KVStore × Dir → Option (List Bool × KVStore × Dir)
  | [], w => some ([], w.1, w.2)
  | o :: rest, w =>
    match step w o with
    | none => none
    | some (b, s1, d1) =>
      match run_flags rest (s1, d1) with
      | none => none
      | some (bs, s2, d2) => some (b :: bs, s2, d2)

/-! ## Membership table and routing (kv_store.h, kv_store.c)

The array `nodes[MAX_NODES]` is the list of its first `count` entries.  The list lock is
a held/free flag like the store lock.  Whether plain `char` is signed is left to the C
implementation; it is the argument `char_signed` of the functions that read key bytes as
numbers. -/

def MAX_NODES : Nat := 10

structure Node where
  ip : CStr
  port : Int
  active : Bool
deriving DecidableEq, Repr

structure NodeList where
  nodes : List Node
  current_node_idx : Int
  lock : Bool
deriving DecidableEq, Repr

/-- The field `count`: the number of entries in use. -/
def NodeList.count (list : NodeList) : Int := list.nodes.length

/-- Locking a held mutex never returns. -/
def list_mutex_lock (list : NodeList) : Option NodeList :=
  if list.lock then none else some { list with lock := true }

def list_mutex_unlock (list : NodeList) : NodeList := { list with lock := false }

/-- The value of a key byte read through `const char*`: a byte of 128 or more is negative
where plain `char` is signed. -/
def char_value (char_signed : Bool) (b : Nat) : Int :=
  if char_signed && decide (128 ≤ b) then (b : Int) - 256 else (b : Int)

/-- The loop of `hash_key`, `hash` being an `unsigned int` of 32 bits. -/
def hash_key_loop (char_signed : Bool) : CStr → Int → Int
  | [], hash => hash
  | b :: rest, hash =>
    hash_key_loop char_signed rest ((hash * 31 + char_value char_signed b) % 2 ^ 32)

def hash_key (char_signed : Bool) (key : CStr) : Int :=
  hash_key_loop char_signed key 0

def node_list_init : NodeList :=
  { nodes := [], current_node_idx := -1, lock := false }

/-- First loop of `node_list_add`: the first entry with this ip and port is set active. -/
def add_existing : List Node → CStr → Int → Option (List Node)
  | [], _, _ => none
  | n :: rest, ip, port =>
    if n.ip == ip && n.port == port then some ({ n with active := true } :: rest)
    else (add_existing rest ip port).map (fun r => n :: r)

def node_list_add (list : NodeList) (ip : CStr) (port : Int) : Option (Bool × NodeList) :=
  if list.count ≥ (MAX_NODES : Int) then some (false, list)
  else
    match list_mutex_lock list with
    | none => none
    | some l1 =>
      match add_existing l1.nodes ip port with
      | some nodes1 => some (true, list_mutex_unlock { l1 with nodes := nodes1 })
      | none =>
        let l2 : NodeList :=
          { l1 with nodes := l1.nodes ++ [{ ip := strncpy_terminated ip 16, port := port,
                                            active := true }] }
        let l3 : NodeList := if l2.count = 1 then { l2 with current_node_idx := 0 } else l2
        some (true, list_mutex_unlock l3)

/-- The inner loop of `node_list_remove`: the index of the first active entry, counted
from `j`, or -1. -/
def first_active : List Node → Int → Int
  | [], _ => -1
  | n :: rest, j => if n.active then j else first_active rest (j + 1)

/-- The outer loop of `node_list_remove` from entry `i` on: the index of the first entry
with this ip and port, and the entries with that one set inactive. -/
def remove_scan : List Node → CStr → Int → Int → Option (Int × List Node)
  | [], _, _, _ => none
  | n :: rest, ip, port, i =>
    if n.ip == ip && n.port == port then some (i, { n with active := false } :: rest)
    else (remove_scan rest ip port (i + 1)).map (fun r => (r.1, n :: r.2))

def node_list_remove (list : NodeList) (ip : CStr) (port : Int) : Option (Bool × NodeList) :=
  match list_mutex_lock list with
  | none => none
  | some l1 =>
    match remove_scan l1.nodes ip port 0 with
    | some (i, nodes1) =>
      let l2 : NodeList := { l1 with nodes := nodes1 }
      let l3 : NodeList :=
        if l2.current_node_idx = i then { l2 with current_node_idx := first_active nodes1 0 }
        else l2
      some (true, list_mutex_unlock l3)
    | none => some (false, list_mutex_unlock l1)

/-- The second loop of `node_for_key` from entry `i` on, `curr_active` active entries
passed: the index of the active entry at which `curr_active` is `node_idx`, or -1. -/
def nth_active : List Node → Int → Int → Int → Int
  | [], _, _, _ => -1
  | n :: rest, i, curr_active, node_idx =>
    if n.active then
      if curr_active = node_idx then i else nth_active rest (i + 1) (curr_active + 1) node_idx
    else nth_active rest (i + 1) curr_active node_idx

/-- The first loop of `node_for_key`. -/
def active_count (nodes : List Node) : Int :=
  (nodes.countP (fun n => n.active) : Nat)

/-- The list is left as it was, its mutex released; the result is the returned index. -/
def node_for_key (char_signed : Bool) (list : NodeList) (key : CStr) : Option Int :=
  if list.count = 0 then some (-1)
  else
    match list_mutex_lock list with
    | none => none
    | some l1 =>
      if active_count l1.nodes = 0 then some (-1)
      else
        let hash := hash_key char_signed key
        let node_idx := hash % active_count l1.nodes
        some (nth_active l1.nodes 0 0 node_idx)

/-! ## Frames, replicator and request dispatcher (kv_store.h, kv_server.c)

A frame is taken with the C strings its key and value fields hold; `op_code` is the
integer on the wire. -/

structure Message where
  op_code : Int
  key : CStr
  value : CStr
  status : Int
deriving DecidableEq, Repr

def OperationCode.toInt : OperationCode → Int
  | OperationCode.OP_GET => 1
  | OperationCode.OP_PUT => 2
  | OperationCode.OP_DELETE => 3
  | OperationCode.OP_REPLICATE => 4
  | OperationCode.OP_NODE_JOIN => 5
  | OperationCode.OP_NODE_LEAVE => 6
  | OperationCode.OP_LIST_KEYS => 7

/-- What the program does not decide: the signedness of plain `char`, what
`connect_to_server` finds at an endpoint (`none` when the connection fails, else the
frame the peer answers a frame with), and the `status` bytes of a local `Message` that
was not initialised. -/
structure Env where
  char_signed : Bool
  connect : CStr → Int → Option (Message → Message)
  uninit_status : Int

/-- The C function `atoi` on the bytes of a C string: the `long` that `strtol` gives,
converted to an `int` of 32 bits. -/
def atoi (s : CStr) : Int :=
  (atol (s.map Char.ofNat) + 2147483648) % 4294967296 - 2147483648

/-- The loop of `replicate_to_nodes` from entry `i` on: the entries afterwards, and the
frames sent with the index of the entry each went to.  The acknowledgement is received
into `repl_msg`. -/
def replicate_loop (env : Env) (current_node_idx : Int) :
    List Node → Int → Message → List Node × List (Int × Message)
  | [], _, _ => ([], [])
  | n :: rest, i, repl_msg =>
    if i ≠ current_node_idx ∧ n.active = true then
      match env.connect n.ip n.port with
      | some peer =>
        let r := replicate_loop env current_node_idx rest (i + 1) (peer repl_msg)
        (n :: r.1, (i, repl_msg) :: r.2)
      | none =>
        let r := replicate_loop env current_node_idx rest (i + 1) repl_msg
        ({ n with active := false } :: r.1, r.2)
    else
      let r := replicate_loop env current_node_idx rest (i + 1) repl_msg
      (n :: r.1, r.2)

def replicate_to_nodes (env : Env) (list : NodeList) (msg : Message) :
    Option (NodeList × List (Int × Message)) :=
  match list_mutex_lock list with
  | none => none
  | some l1 =>
    let repl_msg : Message :=
      { op_code := OperationCode.OP_REPLICATE.toInt
        key := msg.key.take MAX_KEY_SIZE
        value := msg.value.take MAX_VALUE_SIZE
        status := env.uninit_status }
    let r := replicate_loop env l1.current_node_idx l1.nodes 0 repl_msg
    some (list_mutex_unlock { l1 with nodes := r.1 }, r.2)

/-- What one run of `handle_client` leaves: the frame sent back, the store, the data
directory, the membership list, and the frames sent to peers. -/
structure Handled where
  reply : Message
  store : KVStore
  dir : Dir
  list : NodeList
  sent : List (Int × Message)
deriving DecidableEq, Repr

/-- The function `handle_client` after a frame `msg` was received. -/
def handle_client (env : Env) (now : Int) (store : KVStore) (d : Dir) (list : NodeList)
    (msg : Message) : Option Handled :=
  if msg.op_code = OperationCode.OP_GET.toInt then
    match node_for_key env.char_signed list msg.key with
    | none => none
    | some node_idx =>
      if node_idx ≠ list.current_node_idx ∧ node_idx ≥ 0 then
        some { reply := { msg with status := -1 }, store := store, dir := d, list := list,
               sent := [] }
      else
        match kv_store_get store msg.key msg.value with
        | none => none
        | some (true, value) =>
          some { reply := { msg with value := value, status := 1 }, store := store, dir := d,
                 list := list, sent := [] }
        | some (false, value) =>
          some { reply := { msg with value := value, status := 0 }, store := store, dir := d,
                 list := list, sent := [] }
  else if msg.op_code = OperationCode.OP_PUT.toInt then
    match node_for_key env.char_signed list msg.key with
    | none => none
    | some node_idx =>
      if node_idx ≠ list.current_node_idx ∧ node_idx ≥ 0 then
        some { reply := { msg with status := -1 }, store := store, dir := d, list := list,
               sent := [] }
      else
        match kv_store_put now d store msg.key msg.value with
        | none => none
        | some (true, store1, d1) =>
          match replicate_to_nodes env list { msg with status := 1 } with
          | none => none
          | some (list1, sent) =>
            some { reply := { msg with status := 1 }, store := store1, dir := d1,
                   list := list1, sent := sent }
        | some (false, store1, d1) =>
          some { reply := { msg with status := 0 }, store := store1, dir := d1, list := list,
                 sent := [] }
  else if msg.op_code = OperationCode.OP_DELETE.toInt then
    match node_for_key env.char_signed list msg.key with
    | none => none
    | some node_idx =>
      if node_idx ≠ list.current_node_idx ∧ node_idx ≥ 0 then
        some { reply := { msg with status := -1 }, store := store, dir := d, list := list,
               sent := [] }
      else
        match kv_store_delete now d store msg.key with
        | none => none
        | some (true, store1, d1) =>
          match replicate_to_nodes env list { msg with status := 1 } with
          | none => none
          | some (list1, sent) =>
            some { reply := { msg with status := 1 }, store := store1, dir := d1,
                   list := list1, sent := sent }
        | some (false, store1, d1) =>
          some { reply := { msg with status := 0 }, store := store1, dir := d1, list := list,
                 sent := [] }
  else if msg.op_code = OperationCode.OP_REPLICATE.toInt then
    if msg.op_code = OperationCode.OP_PUT.toInt then
      match kv_store_put now d store msg.key msg.value with
      | none => none
      | some (_, store1, d1) =>
        some { reply := { msg with status := 1 }, store := store1, dir := d1, list := list,
               sent := [] }
    else if msg.op_code = OperationCode.OP_DELETE.toInt then
      match kv_store_delete now d store msg.key with
      | none => none
      | some (_, store1, d1) =>
        some { reply := { msg with status := 1 }, store := store1, dir := d1, list := list,
               sent := [] }
    else
      some { reply := { msg with status := 1 }, store := store, dir := d, list := list,
             sent := [] }
  else if msg.op_code = OperationCode.OP_NODE_JOIN.toInt then
    match node_list_add list msg.key (atoi msg.value) with
    | none => none
    | some (_, list1) =>
      some { reply := { msg with status := 1 }, store := store, dir := d, list := list1,
             sent := [] }
  else if msg.op_code = OperationCode.OP_NODE_LEAVE.toInt then
    match node_list_remove list msg.key (atoi msg.value) with
    | none => none
    | some (_, list1) =>
      some { reply := { msg with status := 1 }, store := store, dir := d, list := list1,
             sent := [] }
  else if msg.op_code = OperationCode.OP_LIST_KEYS.toInt then
    match kv_store_list_keys store [] (MAX_VALUE_SIZE : Int) with
    | none => none
    | some buffer =>
      some { reply := { msg with value := strncpy_terminated buffer MAX_VALUE_SIZE,
                                 status := 1 },
             store := store, dir := d, list := list, sent := [] }
  else
    some { reply := { msg with status := -2 }, store := store, dir := d, list := list,
           sent := [] }

/-- The registration of the local endpoint in `start_server`:
`node_list_add(list, ip, port); list->current_node_idx = 0;`. -/
def start_server_register (list : NodeList) (ip : CStr) (port : Int) : Option NodeList :=
  match node_list_add list ip port with
  | none => none
  | some (_, list1) => some { list1 with current_node_idx := 0 }

/-- A call on the membership table. -/
inductive NodeOp where
  | add (ip : CStr) (port : Int)
  | remove (ip : CStr) (port : Int)
deriving DecidableEq, Repr

def node_step (list : NodeList) : NodeOp → Option (Bool × NodeList)
  | NodeOp.add ip port => node_list_add list ip port
  | NodeOp.remove ip port => node_list_remove list ip port

/-- Make the calls one after the other; `none` when one of them never returns. -/
def node_run : List NodeOp → NodeList → Option NodeList
  | [], list => some list
  | o :: rest, list =>
    match node_step list o with
    | none => none
    | some (_, list1) => node_run rest list1

/-- The log entries in the initial log `operations.log`, in append order. -/
def appended_records (d : Dir) : List LogEntry :=
  leading_entries (read_file d "operations.log".toList)

/-- A call of `kv_store_log_operation`, with the clock reading it sees. -/
structure LogCall where
  now : Int
  op : OperationCode
  key : CStr
  value : Option CStr
deriving DecidableEq, Repr

/-- Make the calls of `kv_store_log_operation` one after the other; `none` when one of
them never returns. -/
def log_run : List LogCall → KVStore × Dir → Option (KVStore × Dir)
  | [], w => some w
  | c :: rest, w =>
    match kv_store_log_operation c.now w.2 w.1 c.op c.key c.value with
    | none => none
    | some (_, s1, d1) => log_run rest (s1, d1)

/-! ## The data directory when a call has stopped

A call that locks the held mutex stays blocked for good, and what it wrote before is on
disk (`kv_store_log_operation` flushes the record it appends).  Each function below
follows the statements of the function it is named after and gives the data directory at
the time the call has stopped: when it has returned, or when it is blocked in
`pthread_mutex_lock`. -/

def kv_store_create_snapshot_disk (now : Int) (d : Dir) (s : KVStore) : Dir :=
  if !s.persistence_enabled then d
  else
    match pthread_mutex_lock s with
    | none => d
    | some s1 =>
      let d1 := write_file d (snapshot_name now)
        (Record.count s1.size :: (s1.data.filter (fun p => p.valid)).map Record.pair)
      fopen_append d1 (rotated_log_name now)

def kv_store_log_operation_disk (now : Int) (d : Dir) (s : KVStore) (op : OperationCode)
    (key : CStr) (value : Option CStr) : Dir :=
  match s.log_file with
  | none => d
  | some f =>
    if !s.persistence_enabled then d
    else
      let entry : LogEntry :=
        { op_code := op
          timestamp := now
          key := strncpy_terminated key MAX_KEY_SIZE
          value := match value with
            | some v => strncpy_terminated v MAX_VALUE_SIZE
            | none => [] }
      let d1 := fwrite d f (Record.entry entry)
      let s1 := { s with op_count := s.op_count + 1 }
      if s1.op_count ≥ SNAPSHOT_THRESHOLD then kv_store_create_snapshot_disk now d1 s1
      else d1

def log_if_enabled_disk (now : Int) (d : Dir) (s : KVStore) (op : OperationCode)
    (key : CStr) (value : Option CStr) : Dir :=
  if s.persistence_enabled then kv_store_log_operation_disk now d s op key value else d

def kv_store_put_disk (now : Int) (d : Dir) (s : KVStore) (key value : CStr) : Dir :=
  match pthread_mutex_lock s with
  | none => d
  | some s1 =>
    match put_existing s1.data key value with
    | some data1 =>
      log_if_enabled_disk now d { s1 with data := data1 } OperationCode.OP_PUT key (some value)
    | none =>
      if s1.size ≥ s1.capacity then d
      else
        match put_empty s1.data key value with
        | some data1 =>
          log_if_enabled_disk now d { s1 with data := data1, size := s1.size + 1 }
            OperationCode.OP_PUT key (some value)
        | none => d

def kv_store_delete_disk (now : Int) (d : Dir) (s : KVStore) (key : CStr) : Dir :=
  match pthread_mutex_lock s with
  | none => d
  | some s1 =>
    match delete_scan s1.data key with
    | some data1 =>
      log_if_enabled_disk now d { s1 with data := data1, size := s1.size - 1 }
        OperationCode.OP_DELETE key none
    | none => d

def replay_entry_disk (now : Int) (w : KVStore × Dir) (e : LogEntry) : Dir :=
  match e.op_code with
  | OperationCode.OP_PUT => kv_store_put_disk now w.2 w.1 e.key e.value
  | OperationCode.OP_DELETE => kv_store_delete_disk now w.2 w.1 e.key
  | _ => w.2

/-- The replay loop goes on to the next entry when the call for this one has returned. -/
def replay_entries_disk (now : Int) : List LogEntry → KVStore × Dir → Dir
  | [], w => w.2
  | e :: rest, w =>
    match replay_entry now w e with
    | none => replay_entry_disk now w e
    | some w1 => replay_entries_disk now rest w1

def replay_files_disk (now : Int) : List (List Char) → KVStore × Dir → Dir
  | [], w => w.2
  | name :: rest, w =>
    match replay_entries now (leading_entries (read_file w.2 name)) w with
    | none => replay_entries_disk now (leading_entries (read_file w.2 name)) w
    | some w1 => replay_files_disk now rest w1

def kv_store_recover_from_logs_disk (now : Int) (d : Dir) (s : KVStore) : Dir :=
  if !s.persistence_enabled then d
  else
    let loaded : KVStore × Int :=
      match find_latest_snapshot d with
      | some latest_snapshot =>
        (load_snapshot s (read_file d latest_snapshot), atol (latest_snapshot.drop 9))
      | none => (s, 0)
    replay_files_disk now (find_newer_logs d loaded.2) (loaded.1, d)

def kv_store_enable_persistence_disk (now : Int) (d : Dir) (s : KVStore)
    (data_dir : List Char) : Dir :=
  match pthread_mutex_lock s with
  | none => d
  | some s1 =>
    let d1 := fopen_append d "operations.log".toList
    let s2 := { s1 with
      data_dir := data_dir.take 255
      log_file := some "operations.log".toList
      persistence_enabled := true }
    kv_store_recover_from_logs_disk now d1 s2

/-! ## Notions used in the statements -/

/-- The number of slots with `valid = true`. -/
def valid_count (data : List KeyValuePair) : Nat :=
  data.countP (fun p => p.valid)

/-- The number of valid slots whose key field holds `key`. -/
def key_count (data : List KeyValuePair) (key : CStr) : Nat :=
  data.countP (fun p => p.valid && p.key == key)

/-- The keys of the valid slots, in slot order. -/
def valid_keys (data : List KeyValuePair) : List CStr :=
  (data.filter (fun p => p.valid)).map (fun p => p.key)

/-- The text `key` followed by a newline, for each of `keys`, concatenated. -/
def key_lines (keys : List CStr) : CStr :=
  (keys.map (fun k => k ++ [10])).flatten

/-- The record `kv_store_log_operation` appends for a call. -/
def log_record (c : LogCall) : Record :=
  Record.entry
    { op_code := c.op
      timestamp := c.now
      key := strncpy_terminated c.key MAX_KEY_SIZE
      value := match c.value with
        | some v => strncpy_terminated v MAX_VALUE_SIZE
        | none => [] }

/-- The records of a snapshot of the store: `size`, then the valid slots in slot order. -/
def snapshot_records (s : KVStore) : List Record :=
  Record.count s.size :: (s.data.filter (fun p => p.valid)).map Record.pair

/-- A store at rest with persistence enabled by hand: one slot that holds "k", the
log `operations.log` open, no operation counted. -/
def logging_store : KVStore :=
  { kv_store_init 1 with
    data := [{ key := [107], value := [118], valid := true }]
    size := 1
    log_file := some "operations.log".toList
    persistence_enabled := true }

/-- A log entry the replay loop applies: a PUT or a DELETE. -/
def is_mutation (e : LogEntry) : Bool :=
  e.op_code == OperationCode.OP_PUT || e.op_code == OperationCode.OP_DELETE

/-- The timestamp recovery takes from the latest snapshot, 0 when there is none. -/
def latest_snapshot_time (d : Dir) : Int :=
  match find_latest_snapshot d with
  | some latest_snapshot => atol (latest_snapshot.drop 9)
  | none => 0

/-- A GET frame for the key "j" that carries the bytes "junk" in its value field. -/
def junk_get : Message :=
  { op_code := 1, key := [106], value := [106, 117, 110, 107], status := 0 }

/-- A store at rest whose first slot held "j" and is not valid any more and whose second
slot holds "j" with the value "v". -/
def holding_store : KVStore :=
  { kv_store_init 2 with
    data := [{ key := [106], value := [111], valid := false },
             { key := [106], value := [118], valid := true }]
    size := 1 }

/-- A store at rest whose first slot held "j" and is not valid any more and whose second
slot holds "k". -/
def vacated_store : KVStore :=
  { kv_store_init 2 with
    data := [{ key := [106], value := [111], valid := false },
             { key := [107], value := [118], valid := true }]
    size := 1 }

/-- A data directory on which `kv_store_enable_persistence` returns: a snapshot taken at
time 7 with the pair "k" = "v", a log older than it with a PUT record, a newer log with a
GET record, and `operations.log` with a REPLICATE record. -/
def returning_dir : Dir :=
  [("snapshot_7.dat".toList,
      [Record.count 1, Record.pair { key := [107], value := [118], valid := true }]),
    ("operations_5.log".toList,
      [Record.entry
        { op_code := OperationCode.OP_PUT, timestamp := 5, key := [120], value := [121] }]),
    ("operations_8.log".toList,
      [Record.entry
        { op_code := OperationCode.OP_GET, timestamp := 8, key := [107], value := [] }]),
    ("operations.log".toList,
      [Record.entry
        { op_code := OperationCode.OP_REPLICATE, timestamp := 8, key := [107],
          value := [119] }])]

/-- The hash in the words of the specification: the left fold with seed 0 and step
`h * 31 + byte` over the bytes, each byte taken as its value, modulo `2 ^ 32`. -/
def hash_fold (key : CStr) : Int :=
  key.foldl (fun h b => (h * 31 + (b : Int)) % 2 ^ 32) 0

/-- A membership list at rest with the local node at index 0 and one active peer. -/
def two_node_list : NodeList :=
  { nodes := [{ ip := [49], port := 8080, active := true },
      { ip := [50], port := 8081, active := true }]
    current_node_idx := 0
    lock := false }

/-- An environment: plain `char` signed, every peer reachable and answering a frame with
the same frame and `status = 1`, uninitialised status bytes 0. -/
def answering_env : Env :=
  { char_signed := true
    connect := fun _ _ => some (fun m => { m with status := 1 })
    uninit_status := 0 }

/-- A membership list at rest: an inactive entry followed by an active one. -/
def peer_only_list : NodeList :=
  { nodes := [{ ip := [49], port := 8080, active := false },
      { ip := [50], port := 8081, active := true }]
    current_node_idx := 0
    lock := false }

/-- The state of a store that was initialised and then only put to and deleted from:
at rest, persistence off, `size` counting the valid slots. -/
structure Plain (s : KVStore) : Prop where
  lock : s.lock = false
  persistence : s.persistence_enabled = false
  size : s.size = valid_count s.data

/-! ## The store without persistence -/

theorem put_existing_length {data data1 : List KeyValuePair} {key value : CStr}
    (h : put_existing data key value = some data1) : data1.length = data.length := by
  induction data generalizing data1 with
  | nil => simp [put_existing] at h
  | cons p rest ih =>
    simp only [put_existing] at h
    split at h
    · cases h; simp
    · cases hr : put_existing rest key value with
      | none => simp [hr] at h
      | some r =>
        simp [hr] at h
        subst h
        simp [ih hr]

theorem put_empty_length {data data1 : List KeyValuePair} {key value : CStr}
    (h : put_empty data key value = some data1) : data1.length = data.length := by
  induction data generalizing data1 with
  | nil => simp [put_empty] at h
  | cons p rest ih =>
    simp only [put_empty] at h
    split at h
    · cases h; simp
    · cases hr : put_empty rest key value with
      | none => simp [hr] at h
      | some r =>
        simp [hr] at h
        subst h
        simp [ih hr]

theorem delete_scan_length {data data1 : List KeyValuePair} {key : CStr}
    (h : delete_scan data key = some data1) : data1.length = data.length := by
  induction data generalizing data1 with
  | nil => simp [delete_scan] at h
  | cons p rest ih =>
    simp only [delete_scan] at h
    split at h
    · cases h; simp
    · cases hr : delete_scan rest key with
      | none => simp [hr] at h
      | some r =>
        simp [hr] at h
        subst h
        simp [ih hr]

theorem put_existing_valid_count {data data1 : List KeyValuePair} {key value : CStr}
    (h : put_existing data key value = some data1) : valid_count data1 = valid_count data := by
  induction data generalizing data1 with
  | nil => simp [put_existing] at h
  | cons p rest ih =>
    simp only [put_existing] at h
    split at h
    · cases h; simp [valid_count, List.countP_cons]
    · cases hr : put_existing rest key value with
      | none => simp [hr] at h
      | some r =>
        simp [hr] at h
        subst h
        have := ih hr
        simp only [valid_count] at this
        simp [valid_count, List.countP_cons, this]

theorem put_empty_valid_count {data data1 : List KeyValuePair} {key value : CStr}
    (h : put_empty data key value = some data1) :
    valid_count data1 = valid_count data + 1 := by
  induction data generalizing data1 with
  | nil => simp [put_empty] at h
  | cons p rest ih =>
    simp only [put_empty] at h
    split at h
    · rename_i hv
      cases h
      simp at hv
      simp [valid_count, List.countP_cons, hv]
    · cases hr : put_empty rest key value with
      | none => simp [hr] at h
      | some r =>
        simp [hr] at h
        subst h
        have := ih hr
        simp only [valid_count] at this
        simp [valid_count, List.countP_cons, this]
        omega

theorem put_empty_none {data : List KeyValuePair} {key value : CStr}
    (h : put_empty data key value = none) : valid_count data = data.length := by
  induction data with
  | nil => simp [valid_count]
  | cons p rest ih =>
    simp only [put_empty] at h
    split at h
    · cases h
    · rename_i hv
      simp at hv
      cases hr : put_empty rest key value with
      | none =>
        have := ih hr
        simp only [valid_count] at this
        simp [valid_count, List.countP_cons, hv, this]
      | some r => simp [hr] at h

theorem delete_scan_valid_count {data data1 : List KeyValuePair} {key : CStr}
    (h : delete_scan data key = some data1) :
    valid_count data1 + 1 = valid_count data := by
  induction data generalizing data1 with
  | nil => simp [delete_scan] at h
  | cons p rest ih =>
    simp only [delete_scan] at h
    split at h
    · rename_i hv
      cases h
      simp at hv
      simp [valid_count, List.countP_cons, hv.1]
    · cases hr : delete_scan rest key with
      | none => simp [hr] at h
      | some r =>
        simp [hr] at h
        subst h
        have := ih hr
        simp only [valid_count] at this
        simp [valid_count, List.countP_cons]
        omega

theorem valid_count_le (data : List KeyValuePair) : valid_count data ≤ data.length := by
  simpa [valid_count] using List.countP_le_length (fun p : KeyValuePair => p.valid)

/-- What `kv_store_put` does on a store at rest whose persistence is off. -/
theorem kv_store_put_plain (now : Int) (d : Dir) (s : KVStore) (key value : CStr)
    (hl : s.lock = false) (hp : s.persistence_enabled = false) :
    kv_store_put now d s key value =
      match put_existing s.data key value with
      | some data1 => some (true, { s with data := data1 }, d)
      | none =>
        if s.size ≥ s.capacity then some (false, s, d)
        else
          match put_empty s.data key value with
          | some data1 => some (true, { s with data := data1, size := s.size + 1 }, d)
          | none => some (false, s, d) := by
  cases s
  simp only at hl hp
  subst hl hp
  simp only [kv_store_put, pthread_mutex_lock, pthread_mutex_unlock, log_if_enabled,
    KVStore.capacity]
  simp only [Bool.false_eq_true, if_false]

/-- What `kv_store_delete` does on a store at rest whose persistence is off. -/
theorem kv_store_delete_plain (now : Int) (d : Dir) (s : KVStore) (key : CStr)
    (hl : s.lock = false) (hp : s.persistence_enabled = false) :
    kv_store_delete now d s key =
      match delete_scan s.data key with
      | some data1 => some (true, { s with data := data1, size := s.size - 1 }, d)
      | none => some (false, s, d) := by
  cases s
  simp only at hl hp
  subst hl hp
  simp only [kv_store_delete, pthread_mutex_lock, pthread_mutex_unlock, log_if_enabled]
  simp only [Bool.false_eq_true, if_false]

/-- What `kv_store_get` does on a store at rest. -/
theorem kv_store_get_plain (s : KVStore) (key value : CStr) (hl : s.lock = false) :
    kv_store_get s key value =
      match get_scan s.data key with
      | some v => some (true, v.take MAX_VALUE_SIZE)
      | none => some (false, value) := by
  simp [kv_store_get, pthread_mutex_lock, hl]

theorem plain_init (capacity : Nat) : Plain (kv_store_init capacity) := by
  refine ⟨rfl, rfl, ?_⟩
  simp only [kv_store_init, valid_count]
  rw [List.countP_eq_zero.mpr]
  · rfl
  · intro p hp
    rw [List.eq_of_mem_replicate hp]
    simp

theorem plain_step {s : KVStore} (d : Dir) (o : Op) (h : Plain s) :
    ∃ b s1, step (s, d) o = some (b, s1, d) ∧ Plain s1 ∧ s1.data.length = s.data.length := by
  obtain ⟨hl, hp, hs⟩ := h
  cases o with
  | put now key value =>
    simp only [step, kv_store_put_plain now d s key value hl hp]
    cases he : put_existing s.data key value with
    | some data1 =>
      refine ⟨true, _, rfl, ⟨hl, hp, ?_⟩, put_existing_length he⟩
      simp [hs, put_existing_valid_count he]
    | none =>
      simp only
      split
      · exact ⟨false, s, rfl, ⟨hl, hp, hs⟩, rfl⟩
      · cases hf : put_empty s.data key value with
        | some data1 =>
          refine ⟨true, _, rfl, ⟨hl, hp, ?_⟩, put_empty_length hf⟩
          simp [hs, put_empty_valid_count hf]
        | none => exact ⟨false, s, rfl, ⟨hl, hp, hs⟩, rfl⟩
  | delete now key =>
    simp only [step, kv_store_delete_plain now d s key hl hp]
    cases hd : delete_scan s.data key with
    | some data1 =>
      refine ⟨true, _, rfl, ⟨hl, hp, ?_⟩, delete_scan_length hd⟩
      have := delete_scan_valid_count hd
      simp only [hs]
      omega
    | none => exact ⟨false, s, rfl, ⟨hl, hp, hs⟩, rfl⟩

theorem plain_run (ops : List Op) {s : KVStore} (d : Dir) (h : Plain s) :
    ∃ s1, run ops (s, d) = some (s1, d) ∧ Plain s1 ∧ s1.data.length = s.data.length := by
  induction ops generalizing s with
  | nil => exact ⟨s, rfl, h, rfl⟩
  | cons o rest ih =>
    obtain ⟨b, s1, hstep, hplain, hlen⟩ := plain_step d o h
    obtain ⟨s2, hrun, hplain2, hlen2⟩ := ih hplain
    refine ⟨s2, ?_, hplain2, hlen2.trans hlen⟩
    simp [run, hstep, hrun]

/-! ## Which slots hold a key -/

theorem put_existing_eq_none_iff (data : List KeyValuePair) (key value : CStr) :
    put_existing data key value = none ↔ ∀ p ∈ data, ¬ (p.valid = true ∧ p.key = key) := by
  induction data with
  | nil => simp [put_existing]
  | cons p rest ih =>
    simp only [put_existing]
    split
    · rename_i hv
      simp at hv
      simp [hv]
    · rename_i hv
      simp at hv
      simp only [Option.map_eq_none', ih, List.mem_cons, forall_eq_or_imp, not_and]
      exact ⟨fun h => ⟨hv, h⟩, fun h => h.2⟩

theorem key_count_eq_zero_iff (data : List KeyValuePair) (key : CStr) :
    key_count data key = 0 ↔ ∀ p ∈ data, ¬ (p.valid = true ∧ p.key = key) := by
  simp [key_count, List.countP_eq_zero]

theorem put_existing_key_count {data data1 : List KeyValuePair} {key value : CStr}
    (k : CStr) (h : put_existing data key value = some data1) :
    key_count data1 k = key_count data k := by
  induction data generalizing data1 with
  | nil => simp [put_existing] at h
  | cons p rest ih =>
    simp only [put_existing] at h
    split at h
    · cases h; simp [key_count, List.countP_cons]
    · cases hr : put_existing rest key value with
      | none => simp [hr] at h
      | some r =>
        simp [hr] at h
        subst h
        have := ih hr
        simp only [key_count] at this
        simp [key_count, List.countP_cons, this]

theorem put_empty_key_count {data data1 : List KeyValuePair} {key value : CStr}
    (k : CStr) (h : put_empty data key value = some data1) :
    key_count data1 k =
      key_count data k + (if strncpy_terminated key MAX_KEY_SIZE = k then 1 else 0) := by
  induction data generalizing data1 with
  | nil => simp [put_empty] at h
  | cons p rest ih =>
    simp only [put_empty] at h
    split at h
    · rename_i hv
      cases h
      simp at hv
      simp [key_count, List.countP_cons, hv]
    · cases hr : put_empty rest key value with
      | none => simp [hr] at h
      | some r =>
        simp [hr] at h
        subst h
        have := ih hr
        simp only [key_count] at this
        simp only [key_count, List.countP_cons, this]
        omega

theorem delete_scan_eq_none_iff (data : List KeyValuePair) (key : CStr) :
    delete_scan data key = none ↔ key_count data key = 0 := by
  induction data with
  | nil => simp [delete_scan, key_count]
  | cons p rest ih =>
    simp only [delete_scan]
    split
    · rename_i hv
      simp [key_count, List.countP_cons, hv]
    · rename_i hv
      simp only [Option.map_eq_none', ih]
      simp [key_count, List.countP_cons, hv]

theorem delete_scan_key_count {data data1 : List KeyValuePair} {key : CStr}
    (k : CStr) (h : delete_scan data key = some data1) :
    key_count data1 k + (if key = k then 1 else 0) = key_count data k := by
  induction data generalizing data1 with
  | nil => simp [delete_scan] at h
  | cons p rest ih =>
    simp only [delete_scan] at h
    split at h
    · rename_i hv
      cases h
      simp at hv
      by_cases hk : key = k
      · subst hk
        simp [key_count, List.countP_cons, hv]
      · have : ¬ p.key = k := fun e => hk (hv.2 ▸ e)
        simp [key_count, List.countP_cons, hk, this]
    · cases hr : delete_scan rest key with
      | none => simp [hr] at h
      | some r =>
        simp [hr] at h
        subst h
        have := ih hr
        simp only [key_count] at this
        simp only [key_count, List.countP_cons]
        omega

theorem get_scan_eq_none_iff (data : List KeyValuePair) (key : CStr) :
    get_scan data key = none ↔ key_count data key = 0 := by
  induction data with
  | nil => simp [get_scan, key_count]
  | cons p rest ih =>
    simp only [get_scan]
    split
    · rename_i hv
      simp [key_count, List.countP_cons, hv]
    · rename_i hv
      rw [ih]
      simp [key_count, List.countP_cons, hv]

/-! ## Size invariant and the full store -/

/-- C3. Size invariant: after every sequence of `kv_store_put` and `kv_store_delete`
calls (whatever they return) on the store `kv_store_init capacity`, every call has
returned, `size` is the number of slots with `valid = true`, `0 ≤ size ≤ capacity`, and
`capacity` is what it was.  Every prefix of a sequence is a sequence, so this holds
after every call. -/
theorem size_invariant (capacity : Nat) (ops : List Op) (d : Dir) :
    ∃ s d1, run ops (kv_store_init capacity, d) = some (s, d1) ∧
      s.size = (valid_count s.data : Int) ∧ 0 ≤ s.size ∧ s.size ≤ (capacity : Int) ∧
      s.capacity = (capacity : Int) := by
  obtain ⟨s, hrun, hplain, hlen⟩ := plain_run ops d (plain_init capacity)
  have hcap : s.data.length = capacity := by
    rw [hlen]
    simp [kv_store_init]
  have hle := valid_count_le s.data
  refine ⟨s, d, hrun, hplain.size, ?_, ?_, ?_⟩
  · rw [hplain.size]
    exact Int.ofNat_nonneg _
  · rw [hplain.size]
    omega
  · simp [KVStore.capacity, hcap]

/-- C5. On a store reached from `kv_store_init capacity` by put and delete calls,
`kv_store_put` returns, and it returns false exactly when no valid slot holds the key
and `size = capacity`; when it returns false the store (slot array, size and all) and
the data directory are what they were. -/
theorem put_false_iff_full (capacity : Nat) (ops : List Op) (d : Dir) (now : Int)
    (key value : CStr) :
    ∃ s d1, run ops (kv_store_init capacity, d) = some (s, d1) ∧
      ∃ b s2 d2, kv_store_put now d1 s key value = some (b, s2, d2) ∧
        (b = false ↔
          (∀ p ∈ s.data, ¬ (p.valid = true ∧ p.key = key)) ∧ s.size = s.capacity) ∧
        (b = false → s2 = s ∧ d2 = d1) := by
  obtain ⟨s, hrun, hplain, _⟩ := plain_run ops d (plain_init capacity)
  refine ⟨s, d, hrun, ?_⟩
  rw [kv_store_put_plain now d s key value hplain.lock hplain.persistence]
  have hle := valid_count_le s.data
  have hsize := hplain.size
  cases he : put_existing s.data key value with
  | some data1 =>
    refine ⟨true, _, d, rfl, ?_, ?_⟩
    · have hne : ¬ (∀ p ∈ s.data, ¬ (p.valid = true ∧ p.key = key)) := by
        rw [← put_existing_eq_none_iff s.data key value, he]
        simp
      simp only [Bool.true_eq_false, false_iff]
      intro hall
      exact hne hall.1
    · simp
  | none =>
    have hnone := (put_existing_eq_none_iff s.data key value).mp he
    simp only
    split
    · rename_i hfull
      refine ⟨false, s, d, rfl, ?_, ?_⟩
      · simp only [true_iff]
        refine ⟨hnone, ?_⟩
        simp only [KVStore.capacity] at hfull ⊢
        omega
      · simp
    · rename_i hfull
      cases hf : put_empty s.data key value with
      | some data1 =>
        refine ⟨true, _, d, rfl, ?_, ?_⟩
        · simp only [Bool.true_eq_false, false_iff, not_and]
          intro _ hcontra
          exact hfull (le_of_eq hcontra.symm)
        · simp
      | none =>
        exfalso
        have := put_empty_none hf
        simp only [KVStore.capacity] at hfull
        omega

/-! ## Delete after put -/

theorem strncpy_terminated_short {key : CStr} (h : key.length < MAX_KEY_SIZE) :
    strncpy_terminated key MAX_KEY_SIZE = key := by
  simp only [strncpy_terminated, MAX_KEY_SIZE] at *
  exact List.take_of_length_le (by omega)

/-- A put whose key is not `k` and does not shorten to `k`, or a delete of another key,
leaves the number of slots holding `k` as it is; no call that does not shorten to `k`
takes that number above one. -/
theorem plain_step_key_count {s : KVStore} (d : Dir) (o : Op) (k : CStr) (h : Plain s)
    (hcol : ∀ now key value, o = Op.put now key value →
      strncpy_terminated key MAX_KEY_SIZE = k → key = k) :
    ∃ b s1, step (s, d) o = some (b, s1, d) ∧ Plain s1 ∧
      (o.key ≠ k → key_count s1.data k = key_count s.data k) ∧
      (key_count s.data k ≤ 1 → key_count s1.data k ≤ 1) := by
  obtain ⟨hl, hp, hs⟩ := h
  obtain ⟨b, s1, hstep, hplain, _⟩ := plain_step d o ⟨hl, hp, hs⟩
  refine ⟨b, s1, hstep, hplain, ?_⟩
  cases o with
  | put now key value =>
    simp only [step, kv_store_put_plain now d s key value hl hp] at hstep
    have hcol1 := hcol now key value rfl
    cases he : put_existing s.data key value with
    | some data1 =>
      simp only [he, Option.some.injEq, Prod.mk.injEq] at hstep
      obtain ⟨_, hs1, _⟩ := hstep
      subst hs1
      simp [put_existing_key_count k he]
    | none =>
      simp only [he] at hstep
      split at hstep
      · simp only [Option.some.injEq, Prod.mk.injEq] at hstep
        obtain ⟨_, hs1, _⟩ := hstep
        subst hs1
        simp
      · cases hf : put_empty s.data key value with
        | some data1 =>
          simp only [hf, Option.some.injEq, Prod.mk.injEq] at hstep
          obtain ⟨_, hs1, _⟩ := hstep
          subst hs1
          have hcount := put_empty_key_count k hf
          simp only [Op.key]
          by_cases hk : strncpy_terminated key MAX_KEY_SIZE = k
          · have hkey := hcol1 hk
            subst hkey
            have hzero : key_count s.data key = 0 := by
              rw [key_count_eq_zero_iff]
              exact (put_existing_eq_none_iff s.data key value).mp he
            simp only [hk, if_true, hzero] at hcount
            simp [hcount]
          · simp only [hk, if_false] at hcount
            simp [hcount]
        | none =>
          simp only [hf, Option.some.injEq, Prod.mk.injEq] at hstep
          obtain ⟨_, hs1, _⟩ := hstep
          subst hs1
          simp
  | delete now key =>
    simp only [step, kv_store_delete_plain now d s key hl hp] at hstep
    cases hd : delete_scan s.data key with
    | some data1 =>
      simp only [hd, Option.some.injEq, Prod.mk.injEq] at hstep
      obtain ⟨_, hs1, _⟩ := hstep
      subst hs1
      have hcount := delete_scan_key_count k hd
      simp only [Op.key]
      constructor
      · intro hne
        simp only [hne, if_false] at hcount
        simpa using hcount
      · intro hle
        split at hcount <;> omega
    | none =>
      simp only [hd, Option.some.injEq, Prod.mk.injEq] at hstep
      obtain ⟨_, hs1, _⟩ := hstep
      subst hs1
      simp

theorem plain_run_key_count (ops : List Op) {s : KVStore} (d : Dir) (k : CStr) (h : Plain s)
    (hcol : ∀ o ∈ ops, ∀ now key value, o = Op.put now key value →
      strncpy_terminated key MAX_KEY_SIZE = k → key = k) :
    ∃ s1, run ops (s, d) = some (s1, d) ∧ Plain s1 ∧
      ((∀ o ∈ ops, o.key ≠ k) → key_count s1.data k = key_count s.data k) ∧
      (key_count s.data k ≤ 1 → key_count s1.data k ≤ 1) := by
  induction ops generalizing s with
  | nil => exact ⟨s, rfl, h, fun _ => rfl, fun hle => hle⟩
  | cons o rest ih =>
    obtain ⟨b, s1, hstep, hplain, heq, hle⟩ :=
      plain_step_key_count d o k h (hcol o (List.mem_cons_self _ _))
    obtain ⟨s2, hrun, hplain2, heq2, hle2⟩ :=
      ih hplain (fun o1 ho1 => hcol o1 (List.mem_cons_of_mem _ ho1))
    refine ⟨s2, ?_, hplain2, ?_, fun h1 => hle2 (hle h1)⟩
    · simp [run, hstep, hrun]
    · intro hall
      rw [heq2 (fun o1 ho1 => hall o1 (List.mem_cons_of_mem _ ho1)),
        heq (hall o (List.mem_cons_self _ _))]

/-- C2, as stated, fails: a key of 128 bytes is stored cut to 127 bytes, and the delete
of the same 128-byte key that follows the successful put finds no slot and returns
false.  It also fails for a key of 127 bytes once a put of a 128-byte key that begins
with it has filled a second slot with the same stored key: put, delete and then get of
the 127-byte key all return true. -/
theorem long_key_delete_fails :
    kv_store_put 1 [] (kv_store_init 1) (List.replicate 128 65) [118] =
        some (true,
          { kv_store_init 1 with
            data := [{ key := List.replicate 127 65, value := [118], valid := true }]
            size := 1 }, []) ∧
      kv_store_delete 2 []
          { kv_store_init 1 with
            data := [{ key := List.replicate 127 65, value := [118], valid := true }]
            size := 1 }
          (List.replicate 128 65) =
        some (false,
          { kv_store_init 1 with
            data := [{ key := List.replicate 127 65, value := [118], valid := true }]
            size := 1 }, []) ∧
      (run_flags
          [Op.put 1 (List.replicate 127 65) [49], Op.put 2 (List.replicate 128 65) [50],
            Op.put 3 (List.replicate 127 65) [51], Op.delete 4 (List.replicate 127 65)]
          (kv_store_init 2, [])).map (fun r => r.1) = some [true, true, true, true] ∧
      (run
          [Op.put 1 (List.replicate 127 65) [49], Op.put 2 (List.replicate 128 65) [50],
            Op.put 3 (List.replicate 127 65) [51], Op.delete 4 (List.replicate 127 65)]
          (kv_store_init 2, [])).bind (fun w => kv_store_get w.1 (List.replicate 127 65) []) =
        some (true, [50]) := by
  refine ⟨?_, ?_, ?_, ?_⟩ <;> decide

/-- C2, amended. Take a store reached from `kv_store_init capacity` by put and delete
calls, a key `k` shorter than 128 bytes, and suppose no put call of the whole history has
a key of 128 bytes or more whose first 127 bytes are `k`.  If `kv_store_put k v` returns
true and `kv_store_delete k` is the next call on `k` (no put or delete of `k` lies
between), then the delete returns true, a following `kv_store_get k` returns false and
leaves the caller's buffer alone, and `size` is one less than before the delete. -/
theorem delete_after_put (capacity : Nat) (d : Dir) (ops0 ops1 : List Op) (now1 now2 : Int)
    (k v buffer : CStr) (s0 s1 s2 : KVStore) (d0 d1 d2 : Dir)
    (hk : k.length < MAX_KEY_SIZE)
    (hcol : ∀ now key value, Op.put now key value ∈ ops0 ++ ops1 →
      MAX_KEY_SIZE ≤ key.length → key.take (MAX_KEY_SIZE - 1) ≠ k)
    (hmid : ∀ o ∈ ops1, o.key ≠ k)
    (h0 : run ops0 (kv_store_init capacity, d) = some (s0, d0))
    (h1 : kv_store_put now1 d0 s0 k v = some (true, s1, d1))
    (h2 : run ops1 (s1, d1) = some (s2, d2)) :
    ∃ s3 d3, kv_store_delete now2 d2 s2 k = some (true, s3, d3) ∧
      kv_store_get s3 k buffer = some (false, buffer) ∧ s3.size = s2.size - 1 := by
  have hcol1 : ∀ o ∈ ops0 ++ ops1, ∀ now key value, o = Op.put now key value →
      strncpy_terminated key MAX_KEY_SIZE = k → key = k := by
    intro o ho now key value heq htr
    subst heq
    by_cases hlen : key.length < MAX_KEY_SIZE
    · rw [strncpy_terminated_short hlen] at htr
      exact htr
    · exact absurd htr (hcol now key value ho (Nat.le_of_not_lt hlen))
  -- the history
  obtain ⟨s0a, hrun0, hplain0, _, hle0⟩ :=
    plain_run_key_count ops0 d k (plain_init capacity)
      (fun o ho => hcol1 o (List.mem_append_left _ ho))
  rw [hrun0] at h0
  cases h0
  have hinit : key_count (kv_store_init capacity).data k = 0 := by
    rw [key_count_eq_zero_iff]
    intro p hp
    simp only [kv_store_init] at hp
    rw [List.eq_of_mem_replicate hp]
    simp
  have hc0 : key_count s0.data k ≤ 1 := hle0 (by omega)
  -- the put
  have hput : Plain s1 ∧ d1 = d ∧ key_count s1.data k = 1 := by
    rw [kv_store_put_plain now1 d s0 k v hplain0.lock hplain0.persistence] at h1
    cases he : put_existing s0.data k v with
    | some data1 =>
      simp only [he, Option.some.injEq, Prod.mk.injEq, true_and] at h1
      obtain ⟨hs1, hd1⟩ := h1
      subst hs1
      have hpos : key_count s0.data k ≠ 0 := by
        intro hz
        rw [key_count_eq_zero_iff, ← put_existing_eq_none_iff s0.data k v, he] at hz
        cases hz
      refine ⟨⟨hplain0.lock, hplain0.persistence, ?_⟩, hd1.symm, ?_⟩
      · simp [hplain0.size, put_existing_valid_count he]
      · simp only [put_existing_key_count k he]
        omega
    | none =>
      simp only [he] at h1
      split at h1
      · simp at h1
      · cases hf : put_empty s0.data k v with
        | some data1 =>
          simp only [hf, Option.some.injEq, Prod.mk.injEq, true_and] at h1
          obtain ⟨hs1, hd1⟩ := h1
          subst hs1
          have hzero : key_count s0.data k = 0 := by
            rw [key_count_eq_zero_iff]
            exact (put_existing_eq_none_iff s0.data k v).mp he
          refine ⟨⟨hplain0.lock, hplain0.persistence, ?_⟩, hd1.symm, ?_⟩
          · simp [hplain0.size, put_empty_valid_count hf]
          · simp [put_empty_key_count k hf, strncpy_terminated_short hk, hzero]
        | none => simp [hf] at h1
  obtain ⟨hplain1, hd1, hc1⟩ := hput
  subst hd1
  -- the calls between
  obtain ⟨s2a, hrun1, hplain2, heq2, _⟩ :=
    plain_run_key_count ops1 d1 k hplain1
      (fun o ho => hcol1 o (List.mem_append_right _ ho))
  rw [hrun1] at h2
  cases h2
  have hc2 : key_count s2.data k = 1 := by rw [heq2 hmid, hc1]
  -- the delete and the get
  rw [kv_store_delete_plain now2 d1 s2 k hplain2.lock hplain2.persistence]
  cases hdel : delete_scan s2.data k with
  | none =>
    rw [delete_scan_eq_none_iff] at hdel
    omega
  | some data3 =>
    refine ⟨_, d1, rfl, ?_, rfl⟩
    have hc3 := delete_scan_key_count k hdel
    simp only [if_true] at hc3
    have hz : key_count data3 k = 0 := by omega
    have hget := kv_store_get_plain { s2 with data := data3, size := s2.size - 1 } k buffer
      hplain2.lock
    rw [hget]
    simp only
    rw [(get_scan_eq_none_iff data3 k).mpr hz]

/-- The amended C2 on a store of two slots: after `put "a" "1"`, the calls `put "k" "v"`,
`delete "a"`, `delete "k"`. -/
theorem delete_after_put_witness :
    ([107] : CStr).length < MAX_KEY_SIZE ∧
      (∃ s3 d3,
        kv_store_delete 4 []
            { kv_store_init 2 with
              data := [{ key := [97], value := [49], valid := false },
                { key := [107], value := [118], valid := true }]
              size := 1 } [107] = some (true, s3, d3) ∧
          kv_store_get s3 [107] [] = some (false, []) ∧
          s3.size =
            ({ kv_store_init 2 with
              data := [{ key := [97], value := [49], valid := false },
                { key := [107], value := [118], valid := true }]
              size := 1 } : KVStore).size - 1) :=
  ⟨by decide,
    delete_after_put 2 [] [Op.put 1 [97] [49]] [Op.delete 3 [97]] 2 4 [107] [118] []
      { kv_store_init 2 with
        data := [{ key := [97], value := [49], valid := true },
          { key := [], value := [], valid := false }]
        size := 1 }
      { kv_store_init 2 with
        data := [{ key := [97], value := [49], valid := true },
          { key := [107], value := [118], valid := true }]
        size := 2 }
      { kv_store_init 2 with
        data := [{ key := [97], value := [49], valid := false },
          { key := [107], value := [118], valid := true }]
        size := 1 }
      [] [] [] (by decide)
      (by
        intro now key value hmem hlen
        simp at hmem
        obtain ⟨_, hkey, _⟩ := hmem
        subst hkey
        simp [MAX_KEY_SIZE] at hlen)
      (by decide) (by decide) (by decide) (by decide)⟩

/-! ## Listing the keys -/

theorem valid_keys_cons (p : KeyValuePair) (rest : List KeyValuePair) :
    valid_keys (p :: rest) = if p.valid then p.key :: valid_keys rest else valid_keys rest := by
  cases hv : p.valid <;> simp [valid_keys, List.filter_cons, hv]

theorem key_lines_nil : key_lines [] = [] := rfl

theorem key_lines_cons (k : CStr) (ks : List CStr) :
    key_lines (k :: ks) = (k ++ [10]) ++ key_lines ks := by
  simp [key_lines]

theorem key_lines_take_one_pos (ks : List CStr) (h : 0 < ks.length) :
    1 ≤ (key_lines (ks.take 1)).length := by
  cases ks with
  | nil => simp at h
  | cons k rest => simp [key_lines_cons, key_lines_nil]

theorem list_keys_loop_spec (data : List KeyValuePair) (buffer_size : Int) (buffer : CStr)
    (hpos : (buffer.length : Int) ≤ buffer_size - 1) :
    ∃ n, n ≤ (valid_keys data).length ∧
      list_keys_loop data buffer_size buffer.length buffer =
        buffer ++ key_lines ((valid_keys data).take n) ∧
      (buffer.length : Int) + (key_lines ((valid_keys data).take n)).length
        ≤ buffer_size - 1 ∧
      (n < (valid_keys data).length →
        buffer_size - 1 <
          (buffer.length : Int) + (key_lines ((valid_keys data).take (n + 1))).length) := by
  induction data generalizing buffer with
  | nil =>
    refine ⟨0, by simp, ?_, ?_, ?_⟩
    · simp [list_keys_loop, key_lines_nil]
    · simpa [key_lines_nil] using hpos
    · simp [valid_keys]
  | cons p rest ih =>
    simp only [list_keys_loop]
    by_cases hroom : (buffer.length : Int) < buffer_size - 1
    · simp only [hroom, if_true]
      cases hv : p.valid with
      | false =>
        simp only [Bool.false_eq_true, if_false, valid_keys_cons, hv]
        exact ih buffer hpos
      | true =>
        simp only [if_true, valid_keys_cons, hv]
        by_cases hfit : buffer_size - (buffer.length : Int) - 1 ≥ (p.key.length : Int) + 1
        · simp only [hfit, if_true]
          have hpos1 : (((buffer ++ (p.key ++ [10])).length : Nat) : Int) ≤ buffer_size - 1 := by
            simp only [List.length_append, List.length_singleton, Nat.cast_add, Nat.cast_one]
            omega
          obtain ⟨n, hn, hloop, hfits, hnext⟩ := ih (buffer ++ (p.key ++ [10])) hpos1
          have hlen : ((buffer.length : Int) + ((p.key.length : Int) + 1)) =
              (((buffer ++ (p.key ++ [10])).length : Nat) : Int) := by
            simp only [List.length_append, List.length_singleton, Nat.cast_add, Nat.cast_one]
          refine ⟨n + 1, by simpa using hn, ?_, ?_, ?_⟩
          · rw [hlen, hloop]
            simp [key_lines_cons, List.append_assoc]
          · simp only [List.take_succ_cons, key_lines_cons, List.length_append,
              List.length_singleton, Nat.cast_add, Nat.cast_one] at hfits ⊢
            omega
          · intro hlt
            have hlt1 : n < (valid_keys rest).length := by simpa using hlt
            have := hnext hlt1
            simp only [List.take_succ_cons, key_lines_cons, List.length_append,
              List.length_singleton, Nat.cast_add, Nat.cast_one] at this ⊢
            omega
        · simp only [hfit, if_false]
          refine ⟨0, by simp, by simp [key_lines_nil], by simpa [key_lines_nil] using hpos, ?_⟩
          intro _
          simp only [List.take_succ_cons, List.take_zero, key_lines_cons, key_lines_nil,
            List.length_append, List.length_singleton, List.append_nil, Nat.cast_add,
            Nat.cast_one, zero_add]
          omega
    · simp only [hroom, if_false]
      refine ⟨0, by simp, by simp [key_lines_nil], by simpa [key_lines_nil] using hpos, ?_⟩
      intro hlt
      have hone := key_lines_take_one_pos (valid_keys (p :: rest)) hlt
      simp only [zero_add]
      omega

/-- C7. For a store at rest and `buffer_size > 0`, `kv_store_list_keys` returns and
leaves in the buffer the text `key ++ "\n"` of the first `n` valid slots, in slot order,
where `n` is the longest initial run of valid slots whose text fits in `buffer_size - 1`
bytes (the terminating NUL takes the last byte): the text of `n` keys fits, and when a
valid slot is left its key does not fit any more, whatever comes after it. -/
theorem list_keys_longest_run (s : KVStore) (buffer : CStr) (buffer_size : Int)
    (hl : s.lock = false) (hb : 0 < buffer_size) :
    ∃ n, n ≤ (valid_keys s.data).length ∧
      kv_store_list_keys s buffer buffer_size =
        some (key_lines ((valid_keys s.data).take n)) ∧
      ((key_lines ((valid_keys s.data).take n)).length : Int) ≤ buffer_size - 1 ∧
      (n < (valid_keys s.data).length →
        buffer_size - 1 < ((key_lines ((valid_keys s.data).take (n + 1))).length : Int)) := by
  obtain ⟨n, hn, hloop, hfits, hnext⟩ :=
    list_keys_loop_spec s.data buffer_size [] (by simp; omega)
  refine ⟨n, hn, ?_, by simpa using hfits, fun hlt => by simpa using hnext hlt⟩
  have hnot : ¬ buffer_size ≤ 0 := by omega
  simp only [kv_store_list_keys, hnot, if_false, pthread_mutex_lock, hl]
  simpa using hloop

/-- The statement of C7 on a store whose two slots hold the keys "a" and "b", with a
buffer of four bytes: "a\n" is written, "b\n" would end past byte three. -/
theorem list_keys_longest_run_witness :
    (({ kv_store_init 2 with
        data := [{ key := [97], value := [49], valid := true },
          { key := [98], value := [50], valid := true }]
        size := 2 } : KVStore).lock = false) ∧ (0 : Int) < 4 ∧
      ∃ n, n ≤ (valid_keys [{ key := [97], value := [49], valid := true },
          { key := [98], value := [50], valid := true }]).length ∧
        kv_store_list_keys
            { kv_store_init 2 with
              data := [{ key := [97], value := [49], valid := true },
                { key := [98], value := [50], valid := true }]
              size := 2 } [] 4 =
          some (key_lines ((valid_keys [{ key := [97], value := [49], valid := true },
            { key := [98], value := [50], valid := true }]).take n)) ∧
        ((key_lines ((valid_keys [{ key := [97], value := [49], valid := true },
            { key := [98], value := [50], valid := true }]).take n)).length : Int) ≤ 4 - 1 ∧
        (n < (valid_keys [{ key := [97], value := [49], valid := true },
            { key := [98], value := [50], valid := true }]).length →
          (4 : Int) - 1 <
            ((key_lines ((valid_keys [{ key := [97], value := [49], valid := true },
              { key := [98], value := [50], valid := true }]).take (n + 1))).length : Int)) :=
  ⟨rfl, by decide,
    list_keys_longest_run
      { kv_store_init 2 with
        data := [{ key := [97], value := [49], valid := true },
          { key := [98], value := [50], valid := true }]
        size := 2 } [] 4 rfl (by decide)⟩

/-! ## Overwriting a key that is present -/

/-- The logging statement inside a call that holds the lock: it never returns exactly
when the record it appends is the one that brings `op_count` to the threshold (the
snapshot then locks the held mutex); when it returns, slots, size and lock are as they
were. -/
theorem log_if_enabled_locked (now : Int) (d : Dir) (s : KVStore) (op : OperationCode)
    (key : CStr) (value : Option CStr) (hl : s.lock = true) :
    (s.persistence_enabled = true ∧ s.log_file ≠ none ∧
        SNAPSHOT_THRESHOLD ≤ s.op_count + 1 ∧
        log_if_enabled now d s op key value = none) ∨
      (¬ (s.persistence_enabled = true ∧ s.log_file ≠ none ∧
          SNAPSHOT_THRESHOLD ≤ s.op_count + 1) ∧
        ∃ s1 d1, log_if_enabled now d s op key value = some (s1, d1) ∧
          s1.data = s.data ∧ s1.size = s.size ∧ s1.lock = true) := by
  cases hp : s.persistence_enabled with
  | false =>
    right
    refine ⟨by simp, s, d, ?_, rfl, rfl, hl⟩
    simp [log_if_enabled, hp]
  | true =>
    cases hf : s.log_file with
    | none =>
      right
      refine ⟨by simp, s, d, ?_, rfl, rfl, hl⟩
      simp [log_if_enabled, hp, kv_store_log_operation, hf]
    | some f =>
      by_cases ht : SNAPSHOT_THRESHOLD ≤ s.op_count + 1
      · left
        refine ⟨rfl, by simp, ht, ?_⟩
        simp [log_if_enabled, hp, kv_store_log_operation, hf, ht, kv_store_create_snapshot,
          pthread_mutex_lock, hl]
      · right
        refine ⟨by simp [ht], { s with op_count := s.op_count + 1 },
          fwrite d f (Record.entry
            { op_code := op
              timestamp := now
              key := strncpy_terminated key MAX_KEY_SIZE
              value := match value with
                | some v => strncpy_terminated v MAX_VALUE_SIZE
                | none => [] }), ?_, rfl, rfl, hl⟩
        simp [log_if_enabled, hp, kv_store_log_operation, hf, ht]

theorem put_existing_split {data data1 : List KeyValuePair} {key value : CStr}
    (h : put_existing data key value = some data1) :
    ∃ before p after, data = before ++ p :: after ∧
      (∀ q ∈ before, ¬ (q.valid = true ∧ q.key = key)) ∧ p.valid = true ∧ p.key = key ∧
      data1 =
        before ++ { p with value := strncpy_terminated value MAX_VALUE_SIZE } :: after := by
  induction data generalizing data1 with
  | nil => simp [put_existing] at h
  | cons p rest ih =>
    simp only [put_existing] at h
    split at h
    · rename_i hv
      simp at hv
      cases h
      exact ⟨[], p, rest, rfl, by simp, hv.1, hv.2, rfl⟩
    · rename_i hv
      simp at hv
      cases hr : put_existing rest key value with
      | none => simp [hr] at h
      | some r =>
        simp [hr] at h
        subst h
        obtain ⟨before, q, after, hdata, hbefore, hq1, hq2, hr1⟩ := ih hr
        refine ⟨p :: before, q, after, by simp [hdata], ?_, hq1, hq2, by simp [hr1]⟩
        intro x hx
        rcases List.mem_cons.mp hx with hx | hx
        · subst hx
          exact fun hc => hv hc.1 hc.2
        · exact hbefore x hx

theorem get_scan_split (before : List KeyValuePair) (p : KeyValuePair)
    (after : List KeyValuePair) (key : CStr)
    (hbefore : ∀ q ∈ before, ¬ (q.valid = true ∧ q.key = key))
    (hv : p.valid = true) (hk : p.key = key) :
    get_scan (before ++ p :: after) key = some p.value := by
  induction before with
  | nil => simp [get_scan, hv, hk]
  | cons q rest ih =>
    have hq := hbefore q (List.mem_cons_self _ _)
    have hq1 : ¬ ((q.valid && q.key == key) = true) := by simpa using hq
    simp only [List.cons_append, get_scan, hq1, if_false]
    exact ih (fun x hx => hbefore x (List.mem_cons_of_mem _ hx))

/-- On every store at rest in which a valid slot holds `k`, and for every value shorter
than 1024 bytes, `kv_store_put k v` either never returns, which happens exactly when
persistence is on, the log is open and this is the record that brings `op_count` to the
threshold, or returns true, after which `get k` yields `v`, `size` is what it was, and
the slot array differs only in the value of the first valid slot that holds `k`. -/
theorem put_present_key (now : Int) (d : Dir) (s : KVStore) (k v buffer : CStr)
    (hl : s.lock = false) (hk : ∃ p ∈ s.data, p.valid = true ∧ p.key = k)
    (hv : v.length < MAX_VALUE_SIZE) :
    (s.persistence_enabled = true ∧ s.log_file ≠ none ∧
        SNAPSHOT_THRESHOLD ≤ s.op_count + 1 ∧ kv_store_put now d s k v = none) ∨
      (¬ (s.persistence_enabled = true ∧ s.log_file ≠ none ∧
          SNAPSHOT_THRESHOLD ≤ s.op_count + 1) ∧
        ∃ s2 d2, kv_store_put now d s k v = some (true, s2, d2) ∧
          kv_store_get s2 k buffer = some (true, v) ∧ s2.size = s.size ∧
          ∃ before p after, s.data = before ++ p :: after ∧
            (∀ q ∈ before, ¬ (q.valid = true ∧ q.key = k)) ∧ p.valid = true ∧ p.key = k ∧
            s2.data = before ++ { p with value := v } :: after) := by
  have hsome : ∃ data1, put_existing s.data k v = some data1 := by
    cases he : put_existing s.data k v with
    | some data1 => exact ⟨data1, rfl⟩
    | none =>
      obtain ⟨p, hp, hpv⟩ := hk
      exact absurd hpv ((put_existing_eq_none_iff s.data k v).mp he p hp)
  obtain ⟨data1, he⟩ := hsome
  obtain ⟨before, p, after, hdata, hbefore, hp1, hp2, hdata1⟩ := put_existing_split he
  have hvalue : strncpy_terminated v MAX_VALUE_SIZE = v := by
    simp only [strncpy_terminated, MAX_VALUE_SIZE] at *
    exact List.take_of_length_le (by omega)
  rw [hvalue] at hdata1
  have hput : kv_store_put now d s k v =
      match log_if_enabled now d { s with lock := true, data := data1 }
          OperationCode.OP_PUT k (some v) with
      | none => none
      | some (s2, d2) => some (true, pthread_mutex_unlock s2, d2) := by
    simp [kv_store_put, pthread_mutex_lock, hl, he]
  rcases log_if_enabled_locked now d { s with lock := true, data := data1 }
      OperationCode.OP_PUT k (some v) rfl with ⟨h1, h2, h3, h4⟩ | ⟨h1, s1, d1, h2, h3, h4, _⟩
  · left
    exact ⟨h1, h2, h3, by rw [hput, h4]⟩
  · right
    refine ⟨h1, pthread_mutex_unlock s1, d1, by rw [hput, h2], ?_, h4, before, p, after,
      hdata, hbefore, hp1, hp2, ?_⟩
    · have hlock : (pthread_mutex_unlock s1).lock = false := rfl
      rw [kv_store_get_plain _ k buffer hlock]
      have hd : (pthread_mutex_unlock s1).data = before ++ { p with value := v } :: after := by
        simp only [pthread_mutex_unlock, h3, hdata1]
      rw [hd, get_scan_split before { p with value := v } after k hbefore hp1 hp2]
      simp only
      rw [List.take_of_length_le (by simp only [MAX_VALUE_SIZE] at *; omega)]
    · simp only [pthread_mutex_unlock, h3, hdata1]

/-! ## Get after put -/

/-- What a `kv_store_put` that returns has done to a store at rest, persistence on or
off. -/
theorem kv_store_put_returns {now : Int} {d d1 : Dir} {s s1 : KVStore} {key value : CStr}
    {b : Bool} (hl : s.lock = false) (h : kv_store_put now d s key value = some (b, s1, d1)) :
    s1.lock = false ∧
      match put_existing s.data key value with
      | some data1 => b = true ∧ s1.data = data1
      | none =>
        if s.size ≥ s.capacity then b = false ∧ s1.data = s.data
        else
          match put_empty s.data key value with
          | some data1 => b = true ∧ s1.data = data1
          | none => b = false ∧ s1.data = s.data := by
  simp only [kv_store_put, pthread_mutex_lock, hl, Bool.false_eq_true, if_false] at h
  cases he : put_existing s.data key value with
  | some data1 =>
    simp only [he] at h
    rcases log_if_enabled_locked now d { s with lock := true, data := data1 }
        OperationCode.OP_PUT key (some value) rfl with
      ⟨_, _, _, h4⟩ | ⟨_, s2, d2, h2, h3, _, _⟩
    · simp [h4] at h
    · simp only [h2, Option.some.injEq, Prod.mk.injEq] at h
      obtain ⟨hb, hs, _⟩ := h
      subst hb hs
      exact ⟨rfl, rfl, h3⟩
  | none =>
    simp only [he, KVStore.capacity] at h
    simp only [KVStore.capacity]
    split at h
    · rename_i hfull
      simp only [Option.some.injEq, Prod.mk.injEq] at h
      obtain ⟨hb, hs, _⟩ := h
      subst hb hs
      rw [if_pos hfull]
      exact ⟨rfl, rfl, rfl⟩
    · rename_i hfull
      rw [if_neg hfull]
      cases hf : put_empty s.data key value with
      | some data1 =>
        simp only [hf] at h
        rcases log_if_enabled_locked now d
            { s with lock := true, data := data1, size := s.size + 1 }
            OperationCode.OP_PUT key (some value) rfl with
          ⟨_, _, _, h4⟩ | ⟨_, s2, d2, h2, h3, _, _⟩
        · simp [h4] at h
        · simp only [h2, Option.some.injEq, Prod.mk.injEq] at h
          obtain ⟨hb, hs, _⟩ := h
          subst hb hs
          exact ⟨rfl, rfl, h3⟩
      | none =>
        simp only [hf, Option.some.injEq, Prod.mk.injEq] at h
        obtain ⟨hb, hs, _⟩ := h
        subst hb hs
        exact ⟨rfl, rfl, rfl⟩

/-- What a `kv_store_delete` that returns has done to a store at rest. -/
theorem kv_store_delete_returns {now : Int} {d d1 : Dir} {s s1 : KVStore} {key : CStr}
    {b : Bool} (hl : s.lock = false) (h : kv_store_delete now d s key = some (b, s1, d1)) :
    s1.lock = false ∧
      match delete_scan s.data key with
      | some data1 => b = true ∧ s1.data = data1
      | none => b = false ∧ s1.data = s.data := by
  simp only [kv_store_delete, pthread_mutex_lock, hl, Bool.false_eq_true, if_false] at h
  cases hd : delete_scan s.data key with
  | some data1 =>
    simp only [hd] at h
    rcases log_if_enabled_locked now d
        { s with lock := true, data := data1, size := s.size - 1 }
        OperationCode.OP_DELETE key none rfl with
      ⟨_, _, _, h4⟩ | ⟨_, s2, d2, h2, h3, _, _⟩
    · simp [h4] at h
    · simp only [h2, Option.some.injEq, Prod.mk.injEq] at h
      obtain ⟨hb, hs, _⟩ := h
      subst hb hs
      exact ⟨rfl, rfl, h3⟩
  | none =>
    simp only [hd, Option.some.injEq, Prod.mk.injEq] at h
    obtain ⟨hb, hs, _⟩ := h
    subst hb hs
    exact ⟨rfl, rfl, rfl⟩

theorem get_scan_put_existing_other {data data1 : List KeyValuePair} {key value : CStr}
    (k : CStr) (h : put_existing data key value = some data1) (hne : key ≠ k) :
    get_scan data1 k = get_scan data k := by
  induction data generalizing data1 with
  | nil => simp [put_existing] at h
  | cons p rest ih =>
    simp only [put_existing] at h
    split at h
    · rename_i hv
      simp at hv
      cases h
      have hpk : ¬ p.key = k := fun e => hne (hv.2 ▸ e)
      simp [get_scan, hpk]
    · cases hr : put_existing rest key value with
      | none => simp [hr] at h
      | some r =>
        simp [hr] at h
        subst h
        simp only [get_scan, ih hr]

theorem get_scan_put_empty_other {data data1 : List KeyValuePair} {key value : CStr}
    (k : CStr) (h : put_empty data key value = some data1)
    (hne : strncpy_terminated key MAX_KEY_SIZE ≠ k) :
    get_scan data1 k = get_scan data k := by
  induction data generalizing data1 with
  | nil => simp [put_empty] at h
  | cons p rest ih =>
    simp only [put_empty] at h
    split at h
    · rename_i hv
      simp at hv
      cases h
      simp [get_scan, hv, hne]
    · cases hr : put_empty rest key value with
      | none => simp [hr] at h
      | some r =>
        simp [hr] at h
        subst h
        simp only [get_scan, ih hr]

theorem get_scan_delete_other {data data1 : List KeyValuePair} {key : CStr}
    (k : CStr) (h : delete_scan data key = some data1) (hne : key ≠ k) :
    get_scan data1 k = get_scan data k := by
  induction data generalizing data1 with
  | nil => simp [delete_scan] at h
  | cons p rest ih =>
    simp only [delete_scan] at h
    split at h
    · rename_i hv
      simp at hv
      cases h
      have hpk : ¬ p.key = k := fun e => hne (hv.2 ▸ e)
      simp [get_scan, hpk]
    · cases hr : delete_scan rest key with
      | none => simp [hr] at h
      | some r =>
        simp [hr] at h
        subst h
        simp only [get_scan, ih hr]

theorem get_scan_put_empty_self {data data1 : List KeyValuePair} {key value : CStr}
    (hnone : ∀ p ∈ data, ¬ (p.valid = true ∧ p.key = key))
    (h : put_empty data key value = some data1)
    (hk : strncpy_terminated key MAX_KEY_SIZE = key) :
    get_scan data1 key = some (strncpy_terminated value MAX_VALUE_SIZE) := by
  induction data generalizing data1 with
  | nil => simp [put_empty] at h
  | cons p rest ih =>
    simp only [put_empty] at h
    split at h
    · cases h
      simp [get_scan, hk]
    · cases hr : put_empty rest key value with
      | none => simp [hr] at h
      | some r =>
        simp [hr] at h
        subst h
        have hp := hnone p (List.mem_cons_self _ _)
        have hp1 : ¬ ((p.valid && p.key == key) = true) := by simpa using hp
        simp only [get_scan, hp1, if_false]
        exact ih (fun q hq => hnone q (List.mem_cons_of_mem _ hq)) hr

/-- A call on a key whose first 127 bytes are not `k` leaves the slot `get k` finds, and
its value, as they are. -/
theorem step_get_scan {s s1 : KVStore} {d d1 : Dir} {o : Op} {b : Bool} (k : CStr)
    (hl : s.lock = false) (hne : strncpy_terminated o.key MAX_KEY_SIZE ≠ k)
    (hk : k.length < MAX_KEY_SIZE) (h : step (s, d) o = some (b, s1, d1)) :
    s1.lock = false ∧ get_scan s1.data k = get_scan s.data k := by
  have hkey : o.key ≠ k := by
    intro e
    rw [e, strncpy_terminated_short hk] at hne
    exact hne rfl
  cases o with
  | put now key value =>
    simp only [Op.key] at hne hkey
    obtain ⟨hl1, hr⟩ := kv_store_put_returns hl h
    refine ⟨hl1, ?_⟩
    cases he : put_existing s.data key value with
    | some data1 =>
      simp only [he] at hr
      rw [hr.2]
      exact get_scan_put_existing_other k he hkey
    | none =>
      simp only [he] at hr
      split at hr
      · rw [hr.2]
      · cases hf : put_empty s.data key value with
        | some data1 =>
          simp only [hf] at hr
          rw [hr.2]
          exact get_scan_put_empty_other k hf hne
        | none =>
          simp only [hf] at hr
          rw [hr.2]
  | delete now key =>
    simp only [Op.key] at hne hkey
    obtain ⟨hl1, hr⟩ := kv_store_delete_returns hl h
    refine ⟨hl1, ?_⟩
    cases hd : delete_scan s.data key with
    | some data1 =>
      simp only [hd] at hr
      rw [hr.2]
      exact get_scan_delete_other k hd hkey
    | none =>
      simp only [hd] at hr
      rw [hr.2]

theorem run_get_scan (ops : List Op) {s s1 : KVStore} {d d1 : Dir} (k : CStr)
    (hl : s.lock = false) (hk : k.length < MAX_KEY_SIZE)
    (hne : ∀ o ∈ ops, strncpy_terminated o.key MAX_KEY_SIZE ≠ k)
    (h : run ops (s, d) = some (s1, d1)) :
    s1.lock = false ∧ get_scan s1.data k = get_scan s.data k := by
  induction ops generalizing s d with
  | nil =>
    simp only [run, Option.some.injEq, Prod.mk.injEq] at h
    obtain ⟨hs, _⟩ := h
    subst hs
    exact ⟨hl, rfl⟩
  | cons o rest ih =>
    simp only [run] at h
    cases hstep : step (s, d) o with
    | none => simp [hstep] at h
    | some r =>
      obtain ⟨b, s2, d2⟩ := r
      simp only [hstep] at h
      obtain ⟨hl2, hg2⟩ := step_get_scan k hl (hne o (List.mem_cons_self _ _)) hk hstep
      obtain ⟨hl1, hg1⟩ := ih hl2 (fun o1 ho1 => hne o1 (List.mem_cons_of_mem _ ho1)) h
      exact ⟨hl1, hg1.trans hg2⟩

/-- Get after put, where it holds.  On every store at rest, for `k` shorter than 128
bytes and `v` shorter than 1024 bytes: if `kv_store_put k v` returns true, then after
any further put and delete calls that return and whose keys, cut to 127 bytes, are not
`k`, `kv_store_get k` returns true and yields `v`. -/
theorem get_after_put_uncut (now : Int) (d d1 d2 : Dir) (s s1 s2 : KVStore)
    (k v buffer : CStr) (ops : List Op)
    (hl : s.lock = false) (hk : k.length < MAX_KEY_SIZE) (hv : v.length < MAX_VALUE_SIZE)
    (h1 : kv_store_put now d s k v = some (true, s1, d1))
    (hne : ∀ o ∈ ops, strncpy_terminated o.key MAX_KEY_SIZE ≠ k)
    (h2 : run ops (s1, d1) = some (s2, d2)) :
    kv_store_get s2 k buffer = some (true, v) := by
  have hvalue : strncpy_terminated v MAX_VALUE_SIZE = v := by
    simp only [strncpy_terminated, MAX_VALUE_SIZE] at *
    exact List.take_of_length_le (by omega)
  obtain ⟨hl1, hr⟩ := kv_store_put_returns hl h1
  have hg1 : get_scan s1.data k = some v := by
    cases he : put_existing s.data k v with
    | some data1 =>
      simp only [he] at hr
      obtain ⟨before, p, after, _, hbefore, hp1, hp2, hdata1⟩ := put_existing_split he
      rw [hr.2, hdata1,
        get_scan_split before { p with value := strncpy_terminated v MAX_VALUE_SIZE } after k
          hbefore hp1 hp2]
      simp only [hvalue]
    | none =>
      simp only [he] at hr
      split at hr
      · exact absurd hr.1 (by simp)
      · cases hf : put_empty s.data k v with
        | some data1 =>
          simp only [hf] at hr
          rw [hr.2, get_scan_put_empty_self ((put_existing_eq_none_iff s.data k v).mp he) hf
            (strncpy_terminated_short hk), hvalue]
        | none =>
          simp only [hf] at hr
          exact absurd hr.1 (by simp)
  obtain ⟨hl2, hg2⟩ := run_get_scan ops k hl1 hk hne h2
  rw [kv_store_get_plain s2 k buffer hl2, hg2, hg1]
  simp only
  rw [List.take_of_length_le (by simp only [MAX_VALUE_SIZE] at *; omega)]

/-! ## Keys longer than the key field -/

/-- C1 at its failing input. On a store of two slots that holds "x", `put k "1"` with
`k` of 127 bytes returns true and fills slot 1; then `delete "x"` frees slot 0 and the
put of a 128-byte key that begins with `k` stores its first 127 bytes, that is `k`, in
slot 0.  No call between was a delete or a put of `k`, all four calls returned true,
and `get k` yields "2", not "1". -/
theorem get_after_put_shadowed :
    (run_flags
        [Op.put 1 [120] [48], Op.put 2 (List.replicate 127 65) [49], Op.delete 3 [120],
          Op.put 4 (List.replicate 128 65) [50]]
        (kv_store_init 2, [])).map (fun r => r.1) = some [true, true, true, true] ∧
      (run
        [Op.put 1 [120] [48], Op.put 2 (List.replicate 127 65) [49], Op.delete 3 [120],
          Op.put 4 (List.replicate 128 65) [50]]
        (kv_store_init 2, [])).bind (fun w => kv_store_get w.1 (List.replicate 127 65) []) =
        some (true, [50]) := by
  constructor <;> decide

/-- C4 at its failing input. On an empty store of two slots, the put of a 127-byte key
and then of a 128-byte key that begins with it leave two valid slots with the same
stored key. -/
theorem two_slots_same_key :
    (run [Op.put 1 (List.replicate 127 65) [49], Op.put 2 (List.replicate 128 65) [50]]
        (kv_store_init 2, [])).map (fun w => w.1.data) =
      some [{ key := List.replicate 127 65, value := [49], valid := true },
        { key := List.replicate 127 65, value := [50], valid := true }] := by
  decide

/-! ## Persistence -/

set_option maxRecDepth 100000 in
/-- C6 at its failing input. Persistence is enabled on a fresh data directory for a
store of one slot and "k" is put 99 times: every call returns and `op_count` is 99.
The store is at rest and its valid slot holds "k"; the next `put "k" "w"` takes the
lock, overwrites the value, logs the record, and with `op_count` at 100 calls
`kv_store_create_snapshot`, which locks the mutex the put holds: the put never
returns. -/
theorem put_existing_never_returns :
    ((kv_store_enable_persistence 1 [] (kv_store_init 1) "data".toList).bind
        (fun r => run (List.replicate 99 (Op.put 2 [107] [118])) (r.2.1, r.2.2))).map
        (fun w => (w.1.data, w.1.lock, w.1.persistence_enabled, w.1.op_count)) =
      some ([{ key := [107], value := [118], valid := true }], false, true, 99) ∧
    ((kv_store_enable_persistence 1 [] (kv_store_init 1) "data".toList).bind
        (fun r => run (List.replicate 99 (Op.put 2 [107] [118])) (r.2.1, r.2.2))).bind
        (fun w => kv_store_put 3 w.2 w.1 [107] [119]) = none := by
  constructor <;> decide

set_option maxRecDepth 100000 in
/-- C8 at its failing input. The sequence S is "k" put 100 times. On a store of one
slot without persistence every call returns true.  With persistence enabled on a fresh
data directory the hundredth call never returns (it logs the hundredth record and
`kv_store_create_snapshot` locks the mutex the put holds), so no shutdown and no
recovery follow. -/
theorem hundredth_put_never_returns :
    (run_flags (List.replicate 100 (Op.put 2 [107] [118])) (kv_store_init 1, [])).map
        (fun r => r.1) = some (List.replicate 100 true) ∧
    (kv_store_enable_persistence 1 [] (kv_store_init 1) "data".toList).bind
        (fun r => run (List.replicate 100 (Op.put 2 [107] [118])) (r.2.1, r.2.2)) = none := by
  constructor <;> decide

/-- C9 at its failing input. Persistence is enabled on a fresh data directory and
`put "k" "v"` is called: the record is in `operations.log` and `get "k"` yields "v".
After a restart without `kv_store_destroy`, `kv_store_init` and
`kv_store_enable_persistence` on the same directory find no snapshot and no file named
`operations_*.log` (the name `operations.log` has a dot where the pattern has an
underscore), replay nothing, and `get "k"` returns false. -/
theorem restart_loses_initial_log :
    ((kv_store_enable_persistence 1 [] (kv_store_init 2) "data".toList).bind
        (fun r => run [Op.put 2 [107] [118]] (r.2.1, r.2.2))).bind
        (fun w => kv_store_get w.1 [107] []) = some (true, [118]) ∧
    ((kv_store_enable_persistence 1 [] (kv_store_init 2) "data".toList).bind
        (fun r => run [Op.put 2 [107] [118]] (r.2.1, r.2.2))).map (fun w => w.2) =
      some [("operations.log".toList,
        [Record.entry
          { op_code := OperationCode.OP_PUT, timestamp := 2, key := [107], value := [118] }])] ∧
    (((kv_store_enable_persistence 1 [] (kv_store_init 2) "data".toList).bind
        (fun r => run [Op.put 2 [107] [118]] (r.2.1, r.2.2))).bind
        (fun w => kv_store_enable_persistence 3 w.2 (kv_store_init 2) "data".toList)).bind
        (fun r => kv_store_get r.2.1 [107] []) = some (false, []) := by
  refine ⟨?_, ?_, ?_⟩ <;> decide

/-! ## The log against the store -/

/-- C11 at its failing input. Persistence is enabled on a fresh data directory for a
store of two slots; a key of 127 bytes is put with "1", then a key of 128 bytes that
begins with it is put with "2".  The store ends with `size` 2 and `get` of the 127-byte
key yields "1" (the second put filled a second slot with the same stored key), while
the log holds two PUT records with the same 127-byte key; replaying them with
`kv_store_put` on an empty store of two slots without persistence gives `size` 1 and
"2". -/
theorem log_replay_differs :
    ((kv_store_enable_persistence 1 [] (kv_store_init 2) "data".toList).bind
        (fun r =>
          run [Op.put 2 (List.replicate 127 65) [49], Op.put 3 (List.replicate 128 65) [50]]
            (r.2.1, r.2.2))).map
        (fun w => (w.1.size, kv_store_get w.1 (List.replicate 127 65) [], appended_records w.2)) =
      some (2, some (true, [49]),
        [{ op_code := OperationCode.OP_PUT, timestamp := 2, key := List.replicate 127 65,
           value := [49] },
         { op_code := OperationCode.OP_PUT, timestamp := 3, key := List.replicate 127 65,
           value := [50] }]) ∧
    (replay_entries 9
        [{ op_code := OperationCode.OP_PUT, timestamp := 2, key := List.replicate 127 65,
           value := [49] },
         { op_code := OperationCode.OP_PUT, timestamp := 3, key := List.replicate 127 65,
           value := [50] }]
        (kv_store_init 2, [])).map
        (fun w => (w.1.size, kv_store_get w.1 (List.replicate 127 65) [])) =
      some (1, some (true, [50])) := by
  constructor <;> decide

/-! ## Routing -/

theorem active_count_nil : active_count [] = 0 := rfl

theorem active_count_cons (n : Node) (rest : List Node) :
    active_count (n :: rest) = (if n.active then 1 else 0) + active_count rest := by
  cases h : n.active
  · simp [active_count, List.countP_cons, h]
  · simp [active_count, List.countP_cons, h]
    omega

theorem active_count_nonneg (nodes : List Node) : 0 ≤ active_count nodes := by
  simp [active_count]

theorem active_count_eq_zero_iff (nodes : List Node) :
    active_count nodes = 0 ↔ ∀ n ∈ nodes, n.active = false := by
  simp [active_count, List.countP_eq_zero]

/-- The second loop of `node_for_key` stops at the entry that is active and has exactly
`node_idx - curr_active` active entries before it. -/
theorem nth_active_spec (nodes : List Node) (i curr_active node_idx : Int)
    (h1 : curr_active ≤ node_idx) (h2 : node_idx < curr_active + active_count nodes) :
    ∃ k : Nat, k < nodes.length ∧ nth_active nodes i curr_active node_idx = i + (k : Int) ∧
      (∃ n, nodes[k]? = some n ∧ n.active = true) ∧
      active_count (nodes.take k) = node_idx - curr_active := by
  induction nodes generalizing i curr_active with
  | nil =>
    rw [active_count_nil] at h2
    omega
  | cons n rest ih =>
    rw [active_count_cons] at h2
    simp only [nth_active]
    cases hn : n.active with
    | true =>
      simp only [hn, if_true] at h2 ⊢
      by_cases hc : curr_active = node_idx
      · refine ⟨0, by simp, by simp [hc], ⟨n, by simp, hn⟩, ?_⟩
        simp [active_count_nil, hc]
      · simp only [hc, if_false]
        obtain ⟨k, hk, hres, hact, hcount⟩ :=
          ih (i + 1) (curr_active + 1) (by omega) (by omega)
        refine ⟨k + 1, by simpa using hk, ?_, ?_, ?_⟩
        · rw [hres]
          push_cast
          omega
        · simpa using hact
        · rw [List.take_succ_cons, active_count_cons, hn, hcount]
          simp only [if_true]
          omega
    | false =>
      simp only [hn, Bool.false_eq_true, if_false, zero_add] at h2 ⊢
      obtain ⟨k, hk, hres, hact, hcount⟩ := ih (i + 1) curr_active h1 h2
      refine ⟨k + 1, by simpa using hk, ?_, ?_, ?_⟩
      · rw [hres]
        push_cast
        omega
      · simpa using hact
      · rw [List.take_succ_cons, active_count_cons, hn, hcount]
        simp

/-- C12. For a membership list at rest and every key, `node_for_key` returns; the result
depends on the entries and the key only (any list at rest with the same entries gives
it); it is -1 or an index `i` with `0 ≤ i < count` whose entry is active; and it is -1
exactly when no entry is active. -/
theorem node_for_key_active (char_signed : Bool) (list : NodeList) (key : CStr)
    (hl : list.lock = false) :
    ∃ r, node_for_key char_signed list key = some r ∧
      (∀ list2 : NodeList, list2.lock = false → list2.nodes = list.nodes →
        node_for_key char_signed list2 key = some r) ∧
      (r = -1 ∨ (0 ≤ r ∧ r < list.count ∧
        ∃ n, list.nodes[r.toNat]? = some n ∧ n.active = true)) ∧
      (r = -1 ↔ ∀ n ∈ list.nodes, n.active = false) := by
  have key_fact : ∀ l : NodeList, l.lock = false →
      node_for_key char_signed l key =
        some (if l.nodes.length = 0 then -1
          else if active_count l.nodes = 0 then -1
          else nth_active l.nodes 0 0 (hash_key char_signed key % active_count l.nodes)) := by
    intro l hl1
    simp only [node_for_key, NodeList.count, list_mutex_lock, hl1, Bool.false_eq_true,
      if_false]
    by_cases h0 : l.nodes.length = 0
    · simp [h0]
    · have h0i : ¬ ((l.nodes.length : Int) = 0) := by exact_mod_cast h0
      simp only [h0, h0i, if_false]
      split <;> rfl
  refine ⟨_, key_fact list hl, ?_, ?_⟩
  · intro list2 hl2 hn
    rw [key_fact list2 hl2, hn]
  · by_cases h0 : list.nodes.length = 0
    · have hnil : list.nodes = [] := List.length_eq_zero.mp h0
      simp [h0, hnil]
    · simp only [h0, if_false]
      by_cases ha : active_count list.nodes = 0
      · simp only [ha, if_true, true_or, true_iff]
        exact ⟨trivial, (active_count_eq_zero_iff list.nodes).mp ha⟩
      · simp only [ha, if_false]
        have hpos : 0 < active_count list.nodes :=
          lt_of_le_of_ne (active_count_nonneg _) (Ne.symm ha)
        have hm1 := Int.emod_nonneg (hash_key char_signed key) ha
        have hm2 := Int.emod_lt_of_pos (hash_key char_signed key) hpos
        obtain ⟨k, hk, hres, ⟨n, hn, hact⟩, _⟩ :=
          nth_active_spec list.nodes 0 0 (hash_key char_signed key % active_count list.nodes)
            hm1 (by omega)
        rw [hres]
        have hne : ¬ ((0 : Int) + (k : Int) = -1) := by omega
        refine ⟨Or.inr ⟨by omega, ?_, n, ?_, hact⟩, ?_⟩
        · simp only [NodeList.count]
          omega
        · simpa using hn
        · simp only [hne, false_iff]
          intro hall
          exact ha ((active_count_eq_zero_iff list.nodes).mpr hall)

/-- The statement of C12 on the list of an inactive entry followed by an active one. -/
theorem node_for_key_active_witness :
    (peer_only_list.lock = false) ∧
      ∃ r, node_for_key true peer_only_list [107] = some r ∧
        (∀ list2 : NodeList, list2.lock = false → list2.nodes = peer_only_list.nodes →
          node_for_key true list2 [107] = some r) ∧
        (r = -1 ∨ (0 ≤ r ∧ r < peer_only_list.count ∧
          ∃ n, peer_only_list.nodes[r.toNat]? = some n ∧ n.active = true)) ∧
        (r = -1 ↔ ∀ n ∈ peer_only_list.nodes, n.active = false) :=
  ⟨rfl, node_for_key_active true peer_only_list [107] rfl⟩

theorem active_count_append (xs ys : List Node) :
    active_count (xs ++ ys) = active_count xs + active_count ys := by
  simp [active_count, List.countP_append]

theorem nth_active_single (before after : List Node) (n : Node) (i : Int)
    (hb : ∀ m ∈ before, m.active = false) (hn : n.active = true) :
    nth_active (before ++ n :: after) i 0 0 = i + (before.length : Int) := by
  induction before generalizing i with
  | nil => simp [nth_active, hn]
  | cons m rest ih =>
    have hm : m.active = false := hb m (List.mem_cons_self _ _)
    have ih1 := ih (i + 1) (fun x hx => hb x (List.mem_cons_of_mem _ hx))
    rw [List.cons_append]
    simp only [nth_active, hm, Bool.false_eq_true, if_false]
    rw [ih1]
    simp only [List.length_cons]
    push_cast
    omega

/-- C13. For a membership list at rest with exactly one active entry, any number of
inactive entries before and after it, and for every key, `node_for_key` returns the
index of the active entry. -/
theorem node_for_key_single (char_signed : Bool) (list : NodeList) (key : CStr)
    (before after : List Node) (n : Node) (hl : list.lock = false)
    (hnodes : list.nodes = before ++ n :: after)
    (hb : ∀ m ∈ before, m.active = false) (hn : n.active = true)
    (ha : ∀ m ∈ after, m.active = false) :
    node_for_key char_signed list key = some (before.length : Int) := by
  have hcount : active_count list.nodes = 1 := by
    rw [hnodes, active_count_append, active_count_cons, hn,
      (active_count_eq_zero_iff before).mpr hb, (active_count_eq_zero_iff after).mpr ha]
    simp
  have hlen : ¬ ((list.nodes.length : Int) = 0) := by
    rw [hnodes]
    simp only [List.length_append, List.length_cons]
    push_cast
    omega
  simp only [node_for_key, NodeList.count, hlen, if_false, list_mutex_lock, hl,
    Bool.false_eq_true, hcount, one_ne_zero, Int.emod_one]
  rw [hnodes, nth_active_single before after n 0 hb hn]
  simp

/-- The statement of C13 on the list whose second entry is the active one. -/
theorem node_for_key_single_witness :
    peer_only_list.lock = false ∧
      peer_only_list.nodes =
        [{ ip := [49], port := 8080, active := false }] ++
          ({ ip := [50], port := 8081, active := true } : Node) :: [] ∧
      node_for_key true peer_only_list [107] =
        some (([{ ip := [49], port := 8080, active := false }] : List Node).length : Int) :=
  ⟨rfl, rfl,
    node_for_key_single true peer_only_list [107]
      [{ ip := [49], port := 8080, active := false }] []
      { ip := [50], port := 8081, active := true } rfl rfl (by simp) rfl (by simp)⟩

/-! ## Hash -/

/-- C14, as stated, fails where plain `char` is signed: the one-byte key with byte 200
is read as -56 and hashes to `2 ^ 32 - 56`, while the fold over the byte value gives
200. -/
theorem hash_key_signed_byte :
    hash_key true [200] = 4294967240 ∧ hash_fold [200] = 200 := by
  constructor <;> decide

theorem hash_key_loop_eq_foldl (char_signed : Bool) (key : CStr) (hash : Int)
    (h : char_signed = false ∨ ∀ b ∈ key, b < 128) :
    hash_key_loop char_signed key hash =
      key.foldl (fun h b => (h * 31 + (b : Int)) % 2 ^ 32) hash := by
  induction key generalizing hash with
  | nil => rfl
  | cons b rest ih =>
    have hb : char_value char_signed b = (b : Int) := by
      rcases h with h | h
      · simp [char_value, h]
      · have hlt : b < 128 := h b (List.mem_cons_self _ _)
        have hnot : ¬ 128 ≤ b := by omega
        simp [char_value, hnot]
    have hrest : char_signed = false ∨ ∀ c ∈ rest, c < 128 := by
      rcases h with h | h
      · exact Or.inl h
      · exact Or.inr (fun c hc => h c (List.mem_cons_of_mem _ hc))
    simp only [hash_key_loop, List.foldl_cons, hb]
    exact ih _ hrest

/-- C14, amended. For every key whose bytes are all below 128, and for every key where
plain `char` is unsigned, `hash_key` is the left fold `h := (h * 31 + byte) mod 2 ^ 32`
over the bytes in order from `h = 0`; the hash of the empty key is 0. -/
theorem hash_key_eq_fold (char_signed : Bool) (key : CStr)
    (h : char_signed = false ∨ ∀ b ∈ key, b < 128) :
    hash_key char_signed key = hash_fold key ∧ hash_key char_signed [] = 0 :=
  ⟨hash_key_loop_eq_foldl char_signed key 0 h, rfl⟩

/-- The amended C14 on the key "k" with signed `char`. -/
theorem hash_key_eq_fold_witness :
    ((true = false ∨ ∀ b ∈ ([107] : CStr), b < 128)) ∧
      hash_key true [107] = hash_fold [107] ∧ hash_key true [] = 0 :=
  ⟨Or.inr (by simp), hash_key_eq_fold true [107] (Or.inr (by simp))⟩

/-! ## Membership table -/

theorem add_existing_split {nodes nodes1 : List Node} {ip : CStr} {port : Int}
    (h : add_existing nodes ip port = some nodes1) :
    ∃ before n after, nodes = before ++ n :: after ∧
      (∀ m ∈ before, ¬ (m.ip = ip ∧ m.port = port)) ∧ n.ip = ip ∧ n.port = port ∧
      nodes1 = before ++ { n with active := true } :: after := by
  induction nodes generalizing nodes1 with
  | nil => simp [add_existing] at h
  | cons m rest ih =>
    simp only [add_existing] at h
    split at h
    · rename_i hm
      simp at hm
      cases h
      exact ⟨[], m, rest, rfl, by simp, hm.1, hm.2, rfl⟩
    · rename_i hm
      simp at hm
      cases hr : add_existing rest ip port with
      | none => simp [hr] at h
      | some r =>
        simp [hr] at h
        subst h
        obtain ⟨before, n, after, hnodes, hbefore, hn1, hn2, hr1⟩ := ih hr
        refine ⟨m :: before, n, after, by simp [hnodes], ?_, hn1, hn2, by simp [hr1]⟩
        intro x hx
        rcases List.mem_cons.mp hx with hx | hx
        · subst hx
          exact fun hc => hm hc.1 hc.2
        · exact hbefore x hx

theorem add_existing_eq_none_iff (nodes : List Node) (ip : CStr) (port : Int) :
    add_existing nodes ip port = none ↔ ∀ m ∈ nodes, ¬ (m.ip = ip ∧ m.port = port) := by
  induction nodes with
  | nil => simp [add_existing]
  | cons m rest ih =>
    simp only [add_existing]
    split
    · rename_i hm
      simp at hm
      simp [hm]
    · rename_i hm
      simp at hm
      simp only [Option.map_eq_none', ih, List.mem_cons, forall_eq_or_imp, not_and]
      exact ⟨fun h => ⟨hm, h⟩, fun h => h.2⟩

/-- C15, amended. On every membership list at rest with fewer than `MAX_NODES` entries,
one of which has this ip and port (active or not), `node_list_add` returns true and sets
the first such entry active; `count`, `current_node_idx` and every other entry are as
they were. -/
theorem node_list_add_present (list : NodeList) (ip : CStr) (port : Int)
    (hl : list.lock = false) (hroom : list.count < (MAX_NODES : Int))
    (hex : ∃ m ∈ list.nodes, m.ip = ip ∧ m.port = port) :
    ∃ before n after, list.nodes = before ++ n :: after ∧
      (∀ m ∈ before, ¬ (m.ip = ip ∧ m.port = port)) ∧ n.ip = ip ∧ n.port = port ∧
      node_list_add list ip port =
        some (true, { list with nodes := before ++ { n with active := true } :: after }) := by
  cases he : add_existing list.nodes ip port with
  | none =>
    obtain ⟨m, hm, hmatch⟩ := hex
    exact absurd hmatch ((add_existing_eq_none_iff list.nodes ip port).mp he m hm)
  | some nodes1 =>
    obtain ⟨before, n, after, hnodes, hbefore, hn1, hn2, hnodes1⟩ := add_existing_split he
    refine ⟨before, n, after, hnodes, hbefore, hn1, hn2, ?_⟩
    have hnot : ¬ list.count ≥ (MAX_NODES : Int) := by omega
    cases list
    simp only at hl
    subst hl
    simp only [node_list_add, hnot, if_false, list_mutex_lock, Bool.false_eq_true, he,
      list_mutex_unlock, hnodes1]

/-- The amended C15 on a list of two entries whose entry 0, ("1", 8080), is inactive. -/
theorem node_list_add_present_witness :
    peer_only_list.lock = false ∧ peer_only_list.count < (MAX_NODES : Int) ∧
      (∃ m ∈ peer_only_list.nodes, m.ip = [49] ∧ m.port = 8080) ∧
      ∃ before n after, peer_only_list.nodes = before ++ n :: after ∧
        (∀ m ∈ before, ¬ (m.ip = [49] ∧ m.port = 8080)) ∧ n.ip = [49] ∧ n.port = 8080 ∧
        node_list_add peer_only_list [49] 8080 =
          some (true,
            { peer_only_list with nodes := before ++ { n with active := true } :: after }) :=
  ⟨rfl, by decide, ⟨Node.mk [49] 8080 false, by simp [peer_only_list], rfl, rfl⟩,
    node_list_add_present peer_only_list [49] 8080 rfl (by decide)
      ⟨Node.mk [49] 8080 false, by simp [peer_only_list], rfl, rfl⟩⟩

/-- C15, as stated, fails. Ten endpoints are added to an empty list and the first is
removed: the list has `count = 10` and its entry 0 is inactive.  `node_list_add` of that
entry's ip and port returns false at its first test, `count >= MAX_NODES`, before the
loop that looks for the entry, and the list is what it was: the entry stays inactive. -/
theorem add_on_full_list :
    (node_run
        ((List.range 10).map (fun i => NodeOp.add [49, 48 + i] 80) ++
          [NodeOp.remove [49, 48] 80])
        node_list_init).map (fun l => (l.count, l.nodes.head?)) =
      some (10, some { ip := [49, 48], port := 80, active := false }) ∧
    (node_run
        ((List.range 10).map (fun i => NodeOp.add [49, 48 + i] 80) ++
          [NodeOp.remove [49, 48] 80])
        node_list_init).bind
        (fun l => (node_list_add l [49, 48] 80).map (fun r => (r.1, decide (r.2 = l)))) =
      some (false, true) := by
  constructor <;> decide

/-- C16 at its failing input. The same endpoint, with an ip string of 16 bytes, is added
twice to an empty list.  The second call compares the 16-byte string with the stored
15 bytes, finds no entry, and appends a second entry with the same stored ip and
port. -/
theorem two_entries_same_endpoint :
    node_run [NodeOp.add (List.replicate 16 49) 80, NodeOp.add (List.replicate 16 49) 80]
        node_list_init =
      some { nodes := [{ ip := List.replicate 15 49, port := 80, active := true },
               { ip := List.replicate 15 49, port := 80, active := true }]
             current_node_idx := 0
             lock := false } := by
  decide

theorem add_existing_length {nodes nodes1 : List Node} {ip : CStr} {port : Int}
    (h : add_existing nodes ip port = some nodes1) : nodes1.length = nodes.length := by
  obtain ⟨before, n, after, hnodes, _, _, _, hnodes1⟩ := add_existing_split h
  simp [hnodes, hnodes1]

theorem remove_scan_spec {nodes nodes1 : List Node} {ip : CStr} {port i j : Int}
    (h : remove_scan nodes ip port i = some (j, nodes1)) :
    i ≤ j ∧ nodes1.length = nodes.length ∧
      (∀ n rest, nodes = n :: rest → ¬ (n.ip = ip ∧ n.port = port) →
        i < j ∧ ∃ rest1, nodes1 = n :: rest1) := by
  induction nodes generalizing nodes1 i with
  | nil => simp [remove_scan] at h
  | cons m rest ih =>
    simp only [remove_scan] at h
    split at h
    · rename_i hm
      simp at hm
      simp only [Option.some.injEq, Prod.mk.injEq] at h
      obtain ⟨hij, hn1⟩ := h
      subst hn1
      refine ⟨by omega, by simp, ?_⟩
      intro n rest1 heq hne
      cases heq
      exact absurd hm hne
    · cases hr : remove_scan rest ip port (i + 1) with
      | none => simp [hr] at h
      | some r =>
        obtain ⟨j1, r1⟩ := r
        simp only [hr, Option.map_some', Option.some.injEq, Prod.mk.injEq] at h
        obtain ⟨hj, hn1⟩ := h
        subst hj hn1
        obtain ⟨hle, hlen, _⟩ := ih hr
        refine ⟨by omega, by simp [hlen], ?_⟩
        intro n rest1 heq _
        cases heq
        exact ⟨by omega, r1, rfl⟩

/-- What holds of C16: from `node_list_init`, every sequence of `node_list_add` and
`node_list_remove` calls returns, and `count` does not exceed `MAX_NODES`. -/
theorem node_run_count_le (ops : List NodeOp) :
    ∃ l, node_run ops node_list_init = some l ∧ l.lock = false ∧
      l.count ≤ (MAX_NODES : Int) := by
  have hstep : ∀ (l : NodeList) (o : NodeOp), l.lock = false → l.count ≤ (MAX_NODES : Int) →
      ∃ b l1, node_step l o = some (b, l1) ∧ l1.lock = false ∧
        l1.count ≤ (MAX_NODES : Int) := by
    intro l o hl hc
    cases o with
    | add ip port =>
      simp only [node_step, node_list_add]
      by_cases hfull : l.count ≥ (MAX_NODES : Int)
      · simp only [hfull, if_true]
        exact ⟨false, l, rfl, hl, hc⟩
      · simp only [hfull, if_false, list_mutex_lock, hl, Bool.false_eq_true]
        cases he : add_existing l.nodes ip port with
        | some nodes1 =>
          refine ⟨true, _, rfl, rfl, ?_⟩
          simp only [list_mutex_unlock, NodeList.count, add_existing_length he]
          exact hc
        | none =>
          refine ⟨true, _, rfl, rfl, ?_⟩
          simp only [NodeList.count, MAX_NODES] at hfull hc ⊢
          split <;> simp [list_mutex_unlock] <;> omega
    | remove ip port =>
      simp only [node_step, node_list_remove, list_mutex_lock, hl, Bool.false_eq_true,
        if_false]
      cases hr : remove_scan l.nodes ip port 0 with
      | none => exact ⟨false, _, rfl, rfl, hc⟩
      | some r =>
        obtain ⟨i, nodes1⟩ := r
        refine ⟨true, _, rfl, rfl, ?_⟩
        have hlen := (remove_scan_spec hr).2.1
        simp only [NodeList.count] at hc ⊢
        split <;> simp [list_mutex_unlock, hlen] <;> exact_mod_cast hc
  have hrun : ∀ (ops : List NodeOp) (l : NodeList), l.lock = false →
      l.count ≤ (MAX_NODES : Int) →
      ∃ l1, node_run ops l = some l1 ∧ l1.lock = false ∧ l1.count ≤ (MAX_NODES : Int) := by
    intro ops
    induction ops with
    | nil => exact fun l hl hc => ⟨l, rfl, hl, hc⟩
    | cons o rest ih =>
      intro l hl hc
      obtain ⟨b, l1, hs, hl1, hc1⟩ := hstep l o hl hc
      obtain ⟨l2, hr, hl2, hc2⟩ := ih l1 hl1 hc1
      exact ⟨l2, by simp [node_run, hs, hr], hl2, hc2⟩
  exact hrun ops node_list_init rfl (by simp [node_list_init, NodeList.count])

/-! ## The index of the local node -/

/-- C17, as stated, fails. After the startup registration of the local endpoint
("1", 8080), a peer ("2", 8081) is added and the local endpoint is removed:
`node_list_remove` sets entry 0 inactive and, `current_node_idx` being 0, selects the
first active entry as the new current node.  `current_node_idx` is 1, the index of the
peer. -/
theorem self_index_moves_to_peer :
    (start_server_register node_list_init [49] 8080).bind
        (node_run [NodeOp.add [50] 8081, NodeOp.remove [49] 8080]) =
      some { nodes := [{ ip := [49], port := 8080, active := false },
               { ip := [50], port := 8081, active := true }]
             current_node_idx := 1
             lock := false } := by
  decide

/-- The state the amended C17 keeps: the list is at rest, `current_node_idx` is 0 and
entry 0 holds the local endpoint. -/
theorem self_index_step (self_ip : CStr) (port : Int) (l : NodeList) (o : NodeOp)
    (hl : l.lock = false) (hidx : l.current_node_idx = 0)
    (hhead : ∃ n rest, l.nodes = n :: rest ∧ n.ip = self_ip ∧ n.port = port)
    (ho : o ≠ NodeOp.remove self_ip port) :
    ∃ b l1, node_step l o = some (b, l1) ∧ l1.lock = false ∧ l1.current_node_idx = 0 ∧
      ∃ n rest, l1.nodes = n :: rest ∧ n.ip = self_ip ∧ n.port = port := by
  obtain ⟨n, rest, hnodes, hip, hport⟩ := hhead
  cases o with
  | add ip p =>
    simp only [node_step, node_list_add]
    by_cases hfull : l.count ≥ (MAX_NODES : Int)
    · simp only [hfull, if_true]
      exact ⟨false, l, rfl, hl, hidx, n, rest, hnodes, hip, hport⟩
    · simp only [hfull, if_false, list_mutex_lock, hl, Bool.false_eq_true]
      cases he : add_existing l.nodes ip p with
      | some nodes1 =>
        refine ⟨true, _, rfl, rfl, hidx, ?_⟩
        obtain ⟨before, m, after, hsplit, _, _, _, hnodes1⟩ := add_existing_split he
        simp only [list_mutex_unlock]
        cases before with
        | nil =>
          rw [hnodes] at hsplit
          simp only [List.nil_append, List.cons.injEq] at hsplit
          obtain ⟨hm, _⟩ := hsplit
          subst hm
          exact ⟨{ n with active := true }, after, by simpa using hnodes1, hip, hport⟩
        | cons b before1 =>
          rw [hnodes] at hsplit
          simp only [List.cons_append, List.cons.injEq] at hsplit
          obtain ⟨hb, _⟩ := hsplit
          subst hb
          exact ⟨n, _, by simpa using hnodes1, hip, hport⟩
      | none =>
        have hne : ¬ (NodeList.count
            { nodes := l.nodes ++ [Node.mk (strncpy_terminated ip 16) p true]
              current_node_idx := l.current_node_idx
              lock := true } = 1) := by
          simp only [NodeList.count, hnodes, List.cons_append, List.length_cons,
            List.length_append, List.length_singleton]
          push_cast
          omega
        rw [if_neg hne]
        refine ⟨true, _, rfl, rfl, hidx, n, rest ++ [Node.mk (strncpy_terminated ip 16) p true],
          ?_, hip, hport⟩
        simp [list_mutex_unlock, hnodes]
  | remove ip p =>
    have hne : ¬ (n.ip = ip ∧ n.port = p) := by
      intro hc
      apply ho
      rw [← hip, ← hport, hc.1, hc.2]
    simp only [node_step, node_list_remove, list_mutex_lock, hl, Bool.false_eq_true,
      if_false]
    cases hr : remove_scan l.nodes ip p 0 with
    | none => exact ⟨false, _, rfl, rfl, hidx, n, rest, hnodes, hip, hport⟩
    | some r =>
      obtain ⟨i, nodes1⟩ := r
      obtain ⟨_, _, hhead1⟩ := remove_scan_spec hr
      obtain ⟨hlt, rest1, hnodes1⟩ := hhead1 n rest hnodes hne
      have hni : ¬ l.current_node_idx = i := by omega
      refine ⟨true, _, rfl, ?_, ?_, ?_⟩
      · simp only [hni, if_false]
        rfl
      · simp only [hni, if_false]
        exact hidx
      · simp only [hni, if_false, list_mutex_unlock]
        exact ⟨n, rest1, hnodes1, hip, hport⟩

/-- C17, amended. After the startup registration of the local endpoint (an ip of at most
15 bytes) on an empty list, for every following sequence of `node_list_add` and
`node_list_remove` calls none of which removes the local endpoint, every call returns and
`current_node_idx` is 0, the index of an entry whose ip and port are the local
endpoint. -/
theorem self_index_kept (self_ip : CStr) (port : Int) (ops : List NodeOp)
    (hlen : self_ip.length < 16) (hops : ∀ o ∈ ops, o ≠ NodeOp.remove self_ip port) :
    ∃ l0 l n, start_server_register node_list_init self_ip port = some l0 ∧
      node_run ops l0 = some l ∧ l.current_node_idx = 0 ∧
      l.nodes[0]? = some n ∧ n.ip = self_ip ∧ n.port = port := by
  have hcut : strncpy_terminated self_ip 16 = self_ip := by
    simp only [strncpy_terminated]
    exact List.take_of_length_le (by omega)
  have hrun : ∀ (ops : List NodeOp) (l : NodeList), l.lock = false →
      l.current_node_idx = 0 →
      (∃ n rest, l.nodes = n :: rest ∧ n.ip = self_ip ∧ n.port = port) →
      (∀ o ∈ ops, o ≠ NodeOp.remove self_ip port) →
      ∃ l1, node_run ops l = some l1 ∧ l1.current_node_idx = 0 ∧
        ∃ n rest, l1.nodes = n :: rest ∧ n.ip = self_ip ∧ n.port = port := by
    intro ops
    induction ops with
    | nil => exact fun l _ hidx hhead _ => ⟨l, rfl, hidx, hhead⟩
    | cons o rest ih =>
      intro l hl hidx hhead ho
      obtain ⟨b, l1, hs, hl1, hidx1, hhead1⟩ :=
        self_index_step self_ip port l o hl hidx hhead (ho o (List.mem_cons_self _ _))
      obtain ⟨l2, hr, hres⟩ :=
        ih l1 hl1 hidx1 hhead1 (fun o1 ho1 => ho o1 (List.mem_cons_of_mem _ ho1))
      exact ⟨l2, by simp [node_run, hs, hr], hres⟩
  have hstart : start_server_register node_list_init self_ip port =
      some (NodeList.mk [Node.mk self_ip port true] 0 false) := by
    simp [start_server_register, node_list_add, node_list_init, NodeList.count, MAX_NODES,
      list_mutex_lock, list_mutex_unlock, add_existing, hcut]
  obtain ⟨l, hr, hidx, n, rest, hnodes, hip, hport⟩ :=
    hrun ops (NodeList.mk [Node.mk self_ip port true] 0 false) rfl rfl
      ⟨Node.mk self_ip port true, [], rfl, rfl, rfl⟩ hops
  exact ⟨_, l, n, hstart, hr, hidx, by simp [hnodes], hip, hport⟩

/-- The amended C17 for the local endpoint ("1", 8080), a peer that joins and leaves. -/
theorem self_index_kept_witness :
    ([49] : CStr).length < 16 ∧
      (∀ o ∈ [NodeOp.add [50] 8081, NodeOp.remove [50] 8081], o ≠ NodeOp.remove [49] 8080) ∧
      ∃ l0 l n, start_server_register node_list_init [49] 8080 = some l0 ∧
        node_run [NodeOp.add [50] 8081, NodeOp.remove [50] 8081] l0 = some l ∧
        l.current_node_idx = 0 ∧ l.nodes[0]? = some n ∧ n.ip = [49] ∧ n.port = 8080 :=
  ⟨by decide, by decide,
    self_index_kept [49] 8080 [NodeOp.add [50] 8081, NodeOp.remove [50] 8081] (by decide)
      (by decide)⟩

/-! ## Request dispatcher -/

/-- C18. For every store, membership list and GET, PUT or DELETE frame whose key
`node_for_key` maps to a non-negative index other than `current_node_idx`,
`handle_client` returns, replies with the frame and `status = -1`, sends no frame to any
peer, and leaves store, data directory and membership list as they were (so `get` of the
key of a redirected PUT answers as before). -/
theorem redirect_reply (env : Env) (now : Int) (store : KVStore) (d : Dir) (list : NodeList)
    (msg : Message) (r : Int)
    (hop : msg.op_code = OperationCode.OP_GET.toInt ∨
      msg.op_code = OperationCode.OP_PUT.toInt ∨
      msg.op_code = OperationCode.OP_DELETE.toInt)
    (hr : node_for_key env.char_signed list msg.key = some r)
    (h0 : 0 ≤ r) (hne : r ≠ list.current_node_idx) :
    handle_client env now store d list msg =
      some { reply := { msg with status := -1 }, store := store, dir := d, list := list,
             sent := [] } := by
  have hcond : r ≠ list.current_node_idx ∧ r ≥ 0 := ⟨hne, h0⟩
  rcases hop with h | h | h
  · unfold handle_client
    rw [if_pos h]
    simp only [hr]
    rw [if_pos hcond]
  · have hg : ¬ msg.op_code = OperationCode.OP_GET.toInt := by rw [h]; decide
    unfold handle_client
    rw [if_neg hg, if_pos h]
    simp only [hr]
    rw [if_pos hcond]
  · have hg : ¬ msg.op_code = OperationCode.OP_GET.toInt := by rw [h]; decide
    have hp : ¬ msg.op_code = OperationCode.OP_PUT.toInt := by rw [h]; decide
    unfold handle_client
    rw [if_neg hg, if_neg hp, if_pos h]
    simp only [hr]
    rw [if_pos hcond]

/-- The statement of C18 for the PUT of "k" at node 0 of two active nodes: the key
hashes to 107, which is odd, so node 1 owns it. -/
theorem redirect_reply_witness :
    (((2 : Int) = OperationCode.OP_GET.toInt ∨ (2 : Int) = OperationCode.OP_PUT.toInt ∨
        (2 : Int) = OperationCode.OP_DELETE.toInt)) ∧
      node_for_key answering_env.char_signed two_node_list [107] = some 1 ∧
      (0 : Int) ≤ 1 ∧ (1 : Int) ≠ two_node_list.current_node_idx ∧
      handle_client answering_env 5 (kv_store_init 1) [] two_node_list
          { op_code := 2, key := [107], value := [118], status := 0 } =
        some { reply := { op_code := 2, key := [107], value := [118], status := -1 }
               store := kv_store_init 1
               dir := []
               list := two_node_list
               sent := [] } :=
  ⟨by decide, by decide, by decide, by decide,
    redirect_reply answering_env 5 (kv_store_init 1) [] two_node_list
      { op_code := 2, key := [107], value := [118], status := 0 } 1
      (by decide) (by decide) (by decide) (by decide)⟩

/-- Every frame with the tag REPLICATE is answered with `status = 1` and nothing else
happens: the tests `op_code == OP_PUT` and `op_code == OP_DELETE` stand inside
`case OP_REPLICATE` and are never true. -/
theorem handle_replicate (env : Env) (now : Int) (store : KVStore) (d : Dir)
    (list : NodeList) (msg : Message) (h : msg.op_code = OperationCode.OP_REPLICATE.toInt) :
    handle_client env now store d list msg =
      some { reply := { msg with status := 1 }, store := store, dir := d, list := list,
             sent := [] } := by
  simp [handle_client, h, OperationCode.toInt]

/-- C19 at its failing input. Node 0 of two active nodes handles PUT("j", "v") (the key
hashes to 106, which is even, so node 0 owns it): the put succeeds and
`replicate_to_nodes` sends node 1 the frame (REPLICATE, "j", "v").  The receiving
`handle_client`, on an empty store of one slot, answers that frame with `status = 1`
and sends nothing on, but its store is as it was and `get "j"` returns false.  In the
same way the frame (REPLICATE, "j") built from a DELETE leaves a receiver that holds
"j" holding it. -/
theorem replicate_applies_nothing :
    (handle_client answering_env 5 (kv_store_init 1) [] two_node_list
        { op_code := 2, key := [106], value := [118], status := 0 }).map
        (fun h => (h.reply.status, h.sent)) =
      some (1, [(1, { op_code := 4, key := [106], value := [118], status := 0 })]) ∧
    (handle_client answering_env 6 (kv_store_init 1) [] two_node_list
        { op_code := 4, key := [106], value := [118], status := 0 }).map
        (fun h => (h.reply.status, h.sent, kv_store_get h.store [106] [])) =
      some (1, [], some (false, [])) ∧
    (handle_client answering_env 6 (kv_store_init 1) [] two_node_list
        { op_code := 4, key := [106], value := [118], status := 0 }).map
        (fun h => h.store) = some (kv_store_init 1) ∧
    (handle_client answering_env 6
        { kv_store_init 1 with
          data := [{ key := [106], value := [118], valid := true }]
          size := 1 } [] two_node_list
        { op_code := 4, key := [106], value := [], status := 0 }).map
        (fun h => (h.reply.status, h.sent, kv_store_get h.store [106] [])) =
      some (1, [], some (true, [118])) := by
  refine ⟨?_, ?_, ?_, ?_⟩ <;> decide

/-- C20, as stated, fails. Node 0 of two active nodes owns the key "j".  A GET frame for
"j" that carries the bytes "junk" in its value field, on a store that does not hold "j",
is answered with `status = 0` and the value field still "junk": `kv_store_get` writes
the caller's buffer on a hit only and `handle_client` does not clear it. -/
theorem get_miss_keeps_request_value :
    handle_client answering_env 5 (kv_store_init 1) [] two_node_list
        { op_code := 1, key := [106], value := [106, 117, 110, 107], status := 0 } =
      some { reply := { op_code := 1, key := [106], value := [106, 117, 110, 107],
                        status := 0 }
             store := kv_store_init 1
             dir := []
             list := two_node_list
             sent := [] } := by
  decide

/-- A key that some valid slot holds has a first valid slot holding it. -/
theorem first_valid_slot (data : List KeyValuePair) (key : CStr)
    (h : ∃ q ∈ data, q.valid = true ∧ q.key = key) :
    ∃ before p after, data = before ++ p :: after ∧
      (∀ q ∈ before, ¬ (q.valid = true ∧ q.key = key)) ∧ p.valid = true ∧ p.key = key := by
  induction data with
  | nil =>
    obtain ⟨q, hq, _⟩ := h
    cases hq
  | cons x rest ih =>
    by_cases hx : x.valid = true ∧ x.key = key
    · exact ⟨[], x, rest, rfl, fun q hq => (by cases hq), hx.1, hx.2⟩
    · have hrest : ∃ q ∈ rest, q.valid = true ∧ q.key = key := by
        obtain ⟨q, hq, hv⟩ := h
        rcases List.mem_cons.mp hq with heq | hmem
        · subst heq
          exact absurd hv hx
        · exact ⟨q, hmem, hv⟩
      obtain ⟨before, p, after, hd, hb, hv, hk⟩ := ih hrest
      refine ⟨x :: before, p, after, by rw [hd]; rfl, ?_, hv, hk⟩
      intro q hq
      rcases List.mem_cons.mp hq with heq | hmem
      · subst heq
        exact hx
      · exact hb q hmem

theorem get_scan_absent (data : List KeyValuePair) (key : CStr)
    (h : ∀ q ∈ data, ¬ (q.valid = true ∧ q.key = key)) : get_scan data key = none := by
  induction data with
  | nil => rfl
  | cons x rest ih =>
    have hx := h x (List.mem_cons_self _ _)
    have hx1 : ¬ ((x.valid && x.key == key) = true) := by simpa using hx
    simp only [get_scan, hx1, if_false]
    exact ih (fun q hq => h q (List.mem_cons_of_mem _ hq))

/-- C20, amended. For every GET frame whose key the node owns (`node_for_key` gives
`current_node_idx` or -1) and every store at rest.  If the key is present, that is, some
valid slot of the store holds it, then `handle_client` returns, and with `p` the first
valid slot that holds the key the reply is the request with `status = 1` and the value
field holding the value stored in `p` (the field has 1024 bytes and takes that many; a
stored value of at most 1024 bytes is there in full).  If the key is absent, that is, no
valid slot holds it, then `handle_client` returns and the reply is the request with
`status = 0`, its value field holding the bytes the request carried in it.  In both
cases store, directory and membership list are as they were and nothing is sent to
peers. -/
theorem get_reply (env : Env) (now : Int) (store : KVStore) (d : Dir) (list : NodeList)
    (msg : Message) (r : Int)
    (hop : msg.op_code = OperationCode.OP_GET.toInt) (hl : store.lock = false)
    (hr : node_for_key env.char_signed list msg.key = some r)
    (hown : r = list.current_node_idx ∨ r = -1) :
    ((∃ q ∈ store.data, q.valid = true ∧ q.key = msg.key) →
      ∃ before p after, store.data = before ++ p :: after ∧
        (∀ q ∈ before, ¬ (q.valid = true ∧ q.key = msg.key)) ∧
        p.valid = true ∧ p.key = msg.key ∧
        handle_client env now store d list msg =
          some { reply := { op_code := msg.op_code
                            key := msg.key
                            value := p.value.take MAX_VALUE_SIZE
                            status := 1 }
                 store := store
                 dir := d
                 list := list
                 sent := [] } ∧
        (p.value.length ≤ MAX_VALUE_SIZE → p.value.take MAX_VALUE_SIZE = p.value)) ∧
    ((∀ q ∈ store.data, ¬ (q.valid = true ∧ q.key = msg.key)) →
      handle_client env now store d list msg =
        some { reply := { op_code := msg.op_code
                          key := msg.key
                          value := msg.value
                          status := 0 }
               store := store
               dir := d
               list := list
               sent := [] }) := by
  have hcond : ¬ (r ≠ list.current_node_idx ∧ r ≥ 0) := by
    rcases hown with h | h
    · exact fun hc => hc.1 h
    · intro hc
      omega
  have hcall : handle_client env now store d list msg =
      match get_scan store.data msg.key with
      | some v =>
        some { reply := { msg with value := v.take MAX_VALUE_SIZE, status := 1 }
               store := store, dir := d, list := list, sent := [] }
      | none =>
        some { reply := { msg with status := 0 }
               store := store, dir := d, list := list, sent := [] } := by
    unfold handle_client
    rw [if_pos hop]
    simp only [hr]
    rw [if_neg hcond, kv_store_get_plain store msg.key msg.value hl]
    cases get_scan store.data msg.key <;> rfl
  constructor
  · intro hpresent
    obtain ⟨before, p, after, hd, hb, hv, hk⟩ := first_valid_slot store.data msg.key hpresent
    refine ⟨before, p, after, hd, hb, hv, hk, ?_, fun hlen => List.take_of_length_le hlen⟩
    rw [hcall, hd, get_scan_split before p after msg.key hb hv hk]
  · intro habsent
    rw [hcall, get_scan_absent store.data msg.key habsent]

/-- The amended C20 for a GET of "j" that carries "junk".  On `holding_store` the first
slot held "j" and is not valid any more, the second holds "j" with the value "v": the
reply has `status = 1` and the value "v".  On `vacated_store` no valid slot holds "j":
the reply has `status = 0` and the value "junk". -/
theorem get_reply_witness :
    junk_get.op_code = OperationCode.OP_GET.toInt ∧
      holding_store.lock = false ∧ vacated_store.lock = false ∧
      node_for_key answering_env.char_signed two_node_list junk_get.key = some 0 ∧
      ((0 : Int) = two_node_list.current_node_idx ∨ (0 : Int) = -1) ∧
      (∃ q ∈ holding_store.data, q.valid = true ∧ q.key = junk_get.key) ∧
      (∃ before p after, holding_store.data = before ++ p :: after ∧
        (∀ q ∈ before, ¬ (q.valid = true ∧ q.key = junk_get.key)) ∧
        p.valid = true ∧ p.key = junk_get.key ∧
        handle_client answering_env 5 holding_store [] two_node_list junk_get =
          some { reply := { op_code := junk_get.op_code
                            key := junk_get.key
                            value := p.value.take MAX_VALUE_SIZE
                            status := 1 }
                 store := holding_store
                 dir := []
                 list := two_node_list
                 sent := [] } ∧
        (p.value.length ≤ MAX_VALUE_SIZE → p.value.take MAX_VALUE_SIZE = p.value)) ∧
      (handle_client answering_env 5 holding_store [] two_node_list junk_get).map
          (fun h => h.reply) =
        some { op_code := 1, key := [106], value := [118], status := 1 } ∧
      (∀ q ∈ vacated_store.data, ¬ (q.valid = true ∧ q.key = junk_get.key)) ∧
      handle_client answering_env 5 vacated_store [] two_node_list junk_get =
        some { reply := { op_code := junk_get.op_code
                          key := junk_get.key
                          value := junk_get.value
                          status := 0 }
               store := vacated_store
               dir := []
               list := two_node_list
               sent := [] } ∧
      (handle_client answering_env 5 vacated_store [] two_node_list junk_get).map
          (fun h => h.reply) =
        some { op_code := 1, key := [106], value := [106, 117, 110, 107], status := 0 } :=
  ⟨by decide, rfl, rfl, by decide, by decide, by decide,
    (get_reply answering_env 5 holding_store [] two_node_list junk_get 0
      (by decide) rfl (by decide) (by decide)).1 (by decide),
    by decide, by decide,
    (get_reply answering_env 5 vacated_store [] two_node_list junk_get 0
      (by decide) rfl (by decide) (by decide)).2 (by decide),
    by decide⟩

/-! ## The node a key is routed to -/

theorem hash_key_loop_range (char_signed : Bool) (key : CStr) (hash : Int)
    (h0 : 0 ≤ hash) (h1 : hash < 2 ^ 32) :
    0 ≤ hash_key_loop char_signed key hash ∧ hash_key_loop char_signed key hash < 2 ^ 32 := by
  induction key generalizing hash with
  | nil => exact ⟨h0, h1⟩
  | cons b rest ih =>
    simp only [hash_key_loop]
    exact ih _ (Int.emod_nonneg _ (by norm_num)) (Int.emod_lt_of_pos _ (by norm_num))

/-- The hash is an unsigned number of 32 bits. -/
theorem hash_key_range (char_signed : Bool) (key : CStr) :
    0 ≤ hash_key char_signed key ∧ hash_key char_signed key < 2 ^ 32 :=
  hash_key_loop_range char_signed key 0 (le_refl 0) (by norm_num)

/-- C21. For every membership list at rest with `A ≥ 1` active entries and every key,
`node_for_key` returns the index `k` of an active entry that has exactly `t` active
entries before it in list order, that is the `(t + 1)`-th active entry, where
`t = hash_key key mod A` and the hash is the unsigned number of 32 bits, anywhere from 0
to `2 ^ 32 - 1`. -/
theorem node_for_key_nth (char_signed : Bool) (list : NodeList) (key : CStr)
    (hl : list.lock = false) (hA : 1 ≤ active_count list.nodes) :
    0 ≤ hash_key char_signed key ∧ hash_key char_signed key < 2 ^ 32 ∧
      ∃ k : Nat, node_for_key char_signed list key = some (k : Int) ∧
        k < list.nodes.length ∧ (∃ n, list.nodes[k]? = some n ∧ n.active = true) ∧
        active_count (list.nodes.take k) =
          hash_key char_signed key % active_count list.nodes := by
  obtain ⟨hr0, hr1⟩ := hash_key_range char_signed key
  refine ⟨hr0, hr1, ?_⟩
  have ha : ¬ active_count list.nodes = 0 := by omega
  have hm1 := Int.emod_nonneg (hash_key char_signed key) ha
  have hm2 := Int.emod_lt_of_pos (hash_key char_signed key) (by omega : 0 < active_count list.nodes)
  obtain ⟨k, hk, hres, hact, hcount⟩ :=
    nth_active_spec list.nodes 0 0 (hash_key char_signed key % active_count list.nodes)
      hm1 (by omega)
  have hlen : ¬ ((list.nodes.length : Int) = 0) := by omega
  refine ⟨k, ?_, hk, hact, by simpa using hcount⟩
  simp only [node_for_key, NodeList.count, hlen, if_false, list_mutex_lock, hl,
    Bool.false_eq_true, ha, hres, zero_add]

/-- The statement of C21 on two active nodes for the one-byte key 200 with signed `char`:
the hash is `2 ^ 32 - 56`, above `2 ^ 31`, and even, so the first active entry is
returned. -/
theorem node_for_key_nth_witness :
    two_node_list.lock = false ∧ 1 ≤ active_count two_node_list.nodes ∧
      hash_key true [200] = 4294967240 ∧
      node_for_key true two_node_list [200] = some 0 ∧
      0 ≤ hash_key true [200] ∧ hash_key true [200] < 2 ^ 32 ∧
      ∃ k : Nat, node_for_key true two_node_list [200] = some (k : Int) ∧
        k < two_node_list.nodes.length ∧
        (∃ n, two_node_list.nodes[k]? = some n ∧ n.active = true) ∧
        active_count (two_node_list.nodes.take k) =
          hash_key true [200] % active_count two_node_list.nodes :=
  ⟨rfl, by decide, by decide, by decide,
    node_for_key_nth true two_node_list [200] rfl (by decide)⟩

/-! ## Snapshot threshold -/

/-- One call of `kv_store_log_operation` on a store at rest with persistence on and
the log open: the record is appended; if that brings `op_count` to the threshold, a
snapshot is written, the log is rotated and the counter is reset; else the counter is
one more and nothing else happens. -/
theorem log_operation_at_rest (d : Dir) (s : KVStore) (f : List Char) (c : LogCall)
    (hl : s.lock = false) (hp : s.persistence_enabled = true) (hf : s.log_file = some f) :
    kv_store_log_operation c.now d s c.op c.key c.value =
      if SNAPSHOT_THRESHOLD ≤ s.op_count + 1 then
        some (true, { s with op_count := 0, log_file := some (rotated_log_name c.now) },
          fopen_append
            (write_file (fwrite d f (log_record c)) (snapshot_name c.now)
              (snapshot_records s))
            (rotated_log_name c.now))
      else some (true, { s with op_count := s.op_count + 1 }, fwrite d f (log_record c)) := by
  cases s
  simp only at hl hp hf
  subst hl hp hf
  simp only [kv_store_log_operation, kv_store_create_snapshot, pthread_mutex_lock,
    pthread_mutex_unlock, log_record, snapshot_records, Bool.not_true, Bool.false_eq_true,
    if_false, ge_iff_le]

theorem log_run_spec (calls : List LogCall) (d : Dir) (s : KVStore) (f : List Char)
    (c0 : Nat) (hl : s.lock = false) (hp : s.persistence_enabled = true)
    (hf : s.log_file = some f) (hc : s.op_count = (c0 : Int)) (hlt : c0 < 100) :
    ∃ s1 d1 f1, log_run calls (s, d) = some (s1, d1) ∧
      s1.op_count = (((c0 + calls.length) % 100 : Nat) : Int) ∧ s1.lock = false ∧
      s1.persistence_enabled = true ∧ s1.log_file = some f1 ∧ s1.data = s.data ∧
      s1.size = s.size := by
  induction calls generalizing d s f c0 with
  | nil =>
    refine ⟨s, d, f, rfl, ?_, hl, hp, hf, rfl, rfl⟩
    rw [hc]
    simp only [List.length_nil, Nat.add_zero]
    rw [Nat.mod_eq_of_lt hlt]
  | cons c rest ih =>
    have hstep := log_operation_at_rest d s f c hl hp hf
    by_cases ht : SNAPSHOT_THRESHOLD ≤ s.op_count + 1
    · rw [if_pos ht] at hstep
      have h99 : c0 = 99 := by
        simp only [SNAPSHOT_THRESHOLD, hc] at ht
        omega
      obtain ⟨s1, d1, f1, hrun, hcount, hl1, hp1, hf1, hdata, hsize⟩ :=
        ih _ { s with op_count := 0, log_file := some (rotated_log_name c.now) }
          (rotated_log_name c.now) 0 hl hp rfl rfl (by omega)
      refine ⟨s1, d1, f1, ?_, ?_, hl1, hp1, hf1, hdata, hsize⟩
      · simp only [log_run, hstep]
        exact hrun
      · rw [hcount, h99]
        simp only [List.length_cons]
        congr 1
        omega
    · rw [if_neg ht] at hstep
      have hlt1 : c0 + 1 < 100 := by
        simp only [SNAPSHOT_THRESHOLD, hc] at ht
        omega
      obtain ⟨s1, d1, f1, hrun, hcount, hl1, hp1, hf1, hdata, hsize⟩ :=
        ih _ { s with op_count := s.op_count + 1 } f (c0 + 1) hl hp hf
          (by simp only [hc]; push_cast; rfl) hlt1
      refine ⟨s1, d1, f1, ?_, ?_, hl1, hp1, hf1, hdata, hsize⟩
      · simp only [log_run, hstep]
        exact hrun
      · rw [hcount]
        simp only [List.length_cons]
        congr 2
        omega

/-- The snapshot threshold where the lock is free.  Take a store at rest with persistence
enabled, the log open and `op_count = 0`.
After any number `n` of calls of `kv_store_log_operation` every call has returned and
`op_count` is `n mod 100`, so `0 ≤ op_count < 100`; persistence is still on and a log is
open.  The next call, the `(n + 1)`-th, appends its record to the open log; when
`n + 1` is a multiple of 100 it also writes a snapshot, opens the rotated log and resets
the counter to 0; otherwise the counter is one more and the appended record is all that
reaches the data directory. -/
theorem snapshot_threshold (d : Dir) (s : KVStore) (f : List Char) (calls : List LogCall)
    (hl : s.lock = false) (hp : s.persistence_enabled = true) (hf : s.log_file = some f)
    (hc : s.op_count = 0) :
    ∃ s1 d1 f1, log_run calls (s, d) = some (s1, d1) ∧
      s1.op_count = ((calls.length % 100 : Nat) : Int) ∧
      0 ≤ s1.op_count ∧ s1.op_count < SNAPSHOT_THRESHOLD ∧
      s1.persistence_enabled = true ∧ s1.log_file = some f1 ∧
      ∀ c : LogCall, kv_store_log_operation c.now d1 s1 c.op c.key c.value =
        if (calls.length + 1) % 100 = 0 then
          some (true, { s1 with op_count := 0, log_file := some (rotated_log_name c.now) },
            fopen_append
              (write_file (fwrite d1 f1 (log_record c)) (snapshot_name c.now)
                (snapshot_records s1))
              (rotated_log_name c.now))
        else
          some (true, { s1 with op_count := s1.op_count + 1 }, fwrite d1 f1 (log_record c)) := by
  obtain ⟨s1, d1, f1, hrun, hcount, hl1, hp1, hf1, _, _⟩ :=
    log_run_spec calls d s f 0 hl hp hf (by simp [hc]) (by omega)
  simp only [Nat.zero_add] at hcount
  have hmod : calls.length % 100 < 100 := Nat.mod_lt _ (by omega)
  refine ⟨s1, d1, f1, hrun, hcount, ?_, ?_, hp1, hf1, ?_⟩
  · rw [hcount]
    exact Int.ofNat_nonneg _
  · rw [hcount]
    simp only [SNAPSHOT_THRESHOLD]
    omega
  · intro c
    rw [log_operation_at_rest d1 s1 f1 c hl1 hp1 hf1]
    have hiff : SNAPSHOT_THRESHOLD ≤ s1.op_count + 1 ↔ (calls.length + 1) % 100 = 0 := by
      rw [hcount]
      simp only [SNAPSHOT_THRESHOLD]
      omega
    by_cases ht : SNAPSHOT_THRESHOLD ≤ s1.op_count + 1
    · rw [if_pos ht, if_pos (hiff.mp ht)]
    · rw [if_neg ht, if_neg (fun h => ht (hiff.mpr h))]

/-- The statement just proved after 99 calls on a store with the log `operations.log`
open: the next call is the hundredth. -/
theorem snapshot_threshold_witness :
    logging_store.lock = false ∧ logging_store.persistence_enabled = true ∧
      logging_store.log_file = some "operations.log".toList ∧ logging_store.op_count = 0 ∧
      ∃ s1 d1 f1,
        log_run (List.replicate 99 (LogCall.mk 2 OperationCode.OP_PUT [107] (some [118])))
            (logging_store, [("operations.log".toList, [])]) = some (s1, d1) ∧
          s1.op_count =
            (((List.replicate 99
              (LogCall.mk 2 OperationCode.OP_PUT [107] (some [118]))).length % 100 : Nat) :
              Int) ∧
          0 ≤ s1.op_count ∧ s1.op_count < SNAPSHOT_THRESHOLD ∧
          s1.persistence_enabled = true ∧ s1.log_file = some f1 ∧
          ∀ c : LogCall, kv_store_log_operation c.now d1 s1 c.op c.key c.value =
            if ((List.replicate 99
                (LogCall.mk 2 OperationCode.OP_PUT [107] (some [118]))).length + 1) % 100 = 0
            then
              some (true,
                { s1 with op_count := 0, log_file := some (rotated_log_name c.now) },
                fopen_append
                  (write_file (fwrite d1 f1 (log_record c)) (snapshot_name c.now)
                    (snapshot_records s1))
                  (rotated_log_name c.now))
            else
              some (true, { s1 with op_count := s1.op_count + 1 },
                fwrite d1 f1 (log_record c)) :=
  ⟨rfl, rfl, rfl, rfl,
    snapshot_threshold [("operations.log".toList, [])] logging_store "operations.log".toList
      (List.replicate 99 (LogCall.mk 2 OperationCode.OP_PUT [107] (some [118])))
      rfl rfl rfl rfl⟩

set_option maxRecDepth 100000 in
/-- C22 at its failing input. A store of one slot has persistence enabled, the log
`operations.log` open and `op_count = 0`.  "k" is put 99 times: each put appends one
record and counts it, `op_count` is 99, the log holds 99 records and there is no
snapshot.  The hundredth append is made as `kv_store_put` and `kv_store_delete` make
every append, with the store lock taken: the call of `kv_store_log_operation` appends
the record, brings the counter to 100 and calls `kv_store_create_snapshot`, which locks
the held mutex.  The call never returns: no snapshot is written and the counter is not
reset. -/
theorem hundredth_append_blocks :
    (run (List.replicate 99 (Op.put 2 [107] [118]))
        (logging_store, [("operations.log".toList, [])])).map
        (fun w => (w.1.op_count, w.1.lock, w.2.map (fun f => (f.1, f.2.length)))) =
      some (99, false, [("operations.log".toList, 99)]) ∧
    (run (List.replicate 99 (Op.put 2 [107] [118]))
        (logging_store, [("operations.log".toList, [])])).bind
        (fun w => (pthread_mutex_lock w.1).bind
          (fun s1 =>
            kv_store_log_operation 3 w.2 s1 OperationCode.OP_PUT [107] (some [118]))) =
      none := by
  constructor <;> decide

/-! ## Locking the held lock

In this embedding the only step that yields `none` is `pthread_mutex_lock` on a held
mutex, so a call has the result `none` exactly when a call nested in it locks the store
lock while it is held. -/

/-- On a store at rest `kv_store_put` never returns exactly when it has a record to log
(the key is present, or there is room and a free slot) and that record brings `op_count`
to the threshold with persistence on and the log open. -/
theorem put_never_returns_iff (now : Int) (d : Dir) (s : KVStore) (key value : CStr)
    (hl : s.lock = false) :
    kv_store_put now d s key value = none ↔
      (s.persistence_enabled = true ∧ s.log_file ≠ none ∧
        SNAPSHOT_THRESHOLD ≤ s.op_count + 1) ∧
      ((put_existing s.data key value).isSome = true ∨
        (s.size < s.capacity ∧ (put_empty s.data key value).isSome = true)) := by
  simp only [kv_store_put, pthread_mutex_lock, hl, Bool.false_eq_true, if_false,
    KVStore.capacity]
  cases he : put_existing s.data key value with
  | some data1 =>
    simp only [Option.isSome_some, true_or, and_true]
    rcases log_if_enabled_locked now d { s with lock := true, data := data1 }
        OperationCode.OP_PUT key (some value) rfl with
      ⟨h1, h2, h3, h4⟩ | ⟨h1, s2, d2, h2, _, _, _⟩
    · simp only [h4]
      exact ⟨fun _ => ⟨h1, h2, h3⟩, fun _ => trivial⟩
    · simp only [h2]
      exact ⟨fun h => (by cases h), fun h => absurd h h1⟩
  | none =>
    simp only [Option.isSome_none, Bool.false_eq_true, false_or]
    by_cases hfull : s.size ≥ (s.data.length : Int)
    · simp only [hfull, if_true]
      constructor
      · intro h
        cases h
      · intro h
        omega
    · simp only [hfull, if_false]
      cases hf : put_empty s.data key value with
      | some data1 =>
        have hroom : s.size < (s.data.length : Int) := by omega
        simp only [Option.isSome_some, and_true, hroom]
        rcases log_if_enabled_locked now d
            { s with lock := true, data := data1, size := s.size + 1 }
            OperationCode.OP_PUT key (some value) rfl with
          ⟨h1, h2, h3, h4⟩ | ⟨h1, s2, d2, h2, _, _, _⟩
        · simp only [h4]
          exact ⟨fun _ => ⟨h1, h2, h3⟩, fun _ => trivial⟩
        · simp only [h2]
          exact ⟨fun h => (by cases h), fun h => absurd h h1⟩
      | none =>
        simp only [Option.isSome_none, Bool.false_eq_true, and_false]
        constructor
        · intro h
          cases h
        · intro h
          exact h.elim

/-- On a store at rest `kv_store_delete` never returns exactly when the key is present
and the DELETE record brings `op_count` to the threshold with persistence on and the log
open. -/
theorem delete_never_returns_iff (now : Int) (d : Dir) (s : KVStore) (key : CStr)
    (hl : s.lock = false) :
    kv_store_delete now d s key = none ↔
      (s.persistence_enabled = true ∧ s.log_file ≠ none ∧
        SNAPSHOT_THRESHOLD ≤ s.op_count + 1) ∧
      (delete_scan s.data key).isSome = true := by
  simp only [kv_store_delete, pthread_mutex_lock, hl, Bool.false_eq_true, if_false]
  cases hd : delete_scan s.data key with
  | some data1 =>
    simp only [Option.isSome_some, and_true]
    rcases log_if_enabled_locked now d
        { s with lock := true, data := data1, size := s.size - 1 }
        OperationCode.OP_DELETE key none rfl with
      ⟨h1, h2, h3, h4⟩ | ⟨h1, s2, d2, h2, _, _, _⟩
    · simp only [h4]
      exact ⟨fun _ => ⟨h1, h2, h3⟩, fun _ => trivial⟩
    · simp only [h2]
      exact ⟨fun h => (by cases h), fun h => absurd h h1⟩
  | none =>
    simp only [Option.isSome_none, Bool.false_eq_true, and_false]
    constructor
    · intro h
      cases h
    · intro h
      exact h.elim

theorem load_pair_lock (s : KVStore) (p : KeyValuePair) : (load_pair s p).lock = s.lock := by
  simp only [load_pair]
  cases insert_first_empty s.data p <;> rfl

theorem load_snapshot_lock (s : KVStore) (records : List Record) :
    (load_snapshot s records).lock = s.lock := by
  have hfold : ∀ (ps : List KeyValuePair) (t : KVStore),
      (ps.foldl load_pair t).lock = t.lock := by
    intro ps
    induction ps with
    | nil => exact fun _ => rfl
    | cons p rest ih =>
      intro t
      simp only [List.foldl_cons]
      rw [ih, load_pair_lock]
  cases records with
  | nil => rfl
  | cons r rest =>
    cases r with
    | count n => simp only [load_snapshot]; exact hfold _ s
    | pair p => rfl
    | entry e => rfl

/-- Replay on a store whose lock is held stops for good at the first PUT or DELETE. -/
theorem replay_entries_locked (now : Int) (entries : List LogEntry) (s : KVStore) (d : Dir)
    (hl : s.lock = true) :
    replay_entries now entries (s, d) =
      if entries.any is_mutation then none else some (s, d) := by
  induction entries with
  | nil => rfl
  | cons e rest ih =>
    simp only [replay_entries, List.any_cons]
    cases hop : e.op_code <;>
      simp [replay_entry, hop, is_mutation, kv_store_put, kv_store_delete,
        pthread_mutex_lock, hl, ih]

theorem replay_files_locked (now : Int) (names : List (List Char)) (s : KVStore) (d : Dir)
    (hl : s.lock = true) :
    replay_files now names (s, d) =
      if names.any (fun name => (leading_entries (read_file d name)).any is_mutation)
      then none else some (s, d) := by
  induction names with
  | nil => rfl
  | cons name rest ih =>
    simp only [replay_files, replay_entries_locked now _ s d hl, List.any_cons]
    by_cases hany : (leading_entries (read_file d name)).any is_mutation = true
    · rw [if_pos hany]
      simp [hany]
    · rw [if_neg hany]
      have hfalse : (leading_entries (read_file d name)).any is_mutation = false := by
        simpa using hany
      simp only [hfalse, Bool.false_or]
      exact ih

/-- Recovery on a store whose lock is held, as `kv_store_enable_persistence` runs it. -/
theorem recover_locked (now : Int) (d : Dir) (s : KVStore) (hl : s.lock = true)
    (hp : s.persistence_enabled = true) :
    kv_store_recover_from_logs now d s =
      if (find_newer_logs d (latest_snapshot_time d)).any
          (fun name => (leading_entries (read_file d name)).any is_mutation)
      then none
      else some (true,
        (match find_latest_snapshot d with
          | some latest_snapshot => load_snapshot s (read_file d latest_snapshot)
          | none => s), d) := by
  simp only [kv_store_recover_from_logs, hp, Bool.not_true, Bool.false_eq_true, if_false,
    latest_snapshot_time]
  have hcases : find_latest_snapshot d = none ∨ ∃ l, find_latest_snapshot d = some l := by
    cases find_latest_snapshot d
    · exact Or.inl rfl
    · exact Or.inr ⟨_, rfl⟩
  rcases hcases with hsnap | ⟨latest, hsnap⟩
  · simp only [hsnap]
    rw [replay_files_locked now _ s d hl]
    split_ifs <;> rfl
  · simp only [hsnap]
    rw [replay_files_locked now _ _ d (by rw [load_snapshot_lock]; exact hl)]
    split_ifs <;> rfl

/-- On a store at rest `kv_store_enable_persistence` never returns exactly when one of
the log files recovery replays holds a PUT or DELETE record among the entries it
reads. -/
theorem enable_never_returns_iff (now : Int) (d : Dir) (s : KVStore) (data_dir : List Char)
    (hl : s.lock = false) :
    kv_store_enable_persistence now d s data_dir = none ↔
      (find_newer_logs (fopen_append d "operations.log".toList)
          (latest_snapshot_time (fopen_append d "operations.log".toList))).any
        (fun name =>
          (leading_entries (read_file (fopen_append d "operations.log".toList) name)).any
            is_mutation) = true := by
  simp only [kv_store_enable_persistence, pthread_mutex_lock, hl, Bool.false_eq_true,
    if_false]
  rw [recover_locked now _ _ rfl rfl]
  split_ifs with h
  · exact ⟨fun _ => h, fun _ => rfl⟩
  · exact ⟨fun hc => (by cases hc), fun hc => absurd hc h⟩

set_option maxRecDepth 100000 in
/-- C23 at its failing inputs. (1) A store with persistence on has logged 99 operations
and is at rest, its lock free.  `kv_store_delete` of the key it holds takes the lock and
logs the hundredth record; `kv_store_log_operation` calls `kv_store_create_snapshot`,
which locks the mutex `kv_store_delete` holds: the call never returns.  (2) The data
directory holds `operations_5.log` with one DELETE record.
`kv_store_enable_persistence` on a fresh store takes the lock and runs
`kv_store_recover_from_logs`, which replays the record through `kv_store_delete`, which
locks the held mutex: the call never returns. -/
theorem nested_lock_on_held_lock :
    (run (List.replicate 99 (Op.put 2 [107] [118]))
        (logging_store, [("operations.log".toList, [])])).map
        (fun w => (w.1.lock, w.1.op_count, kv_store_get w.1 [107] [])) =
      some (false, 99, some (true, [118])) ∧
    (run (List.replicate 99 (Op.put 2 [107] [118]))
        (logging_store, [("operations.log".toList, [])])).bind
        (fun w => kv_store_delete 3 w.2 w.1 [107]) = none ∧
    (kv_store_init 1).lock = false ∧
    kv_store_enable_persistence 9
        [("operations_5.log".toList,
          [Record.entry
            { op_code := OperationCode.OP_DELETE, timestamp := 5, key := [107], value := [] }])]
        (kv_store_init 1) "data".toList = none := by
  refine ⟨?_, ?_, ?_, ?_⟩ <;> decide

/-! ## Recovery and the log files -/

theorem kv_store_create_snapshot_disk_eq (now : Int) (d : Dir) (s : KVStore)
    (r : Bool × KVStore × Dir) (h : kv_store_create_snapshot now d s = some r) :
    kv_store_create_snapshot_disk now d s = r.2.2 := by
  unfold kv_store_create_snapshot at h
  unfold kv_store_create_snapshot_disk
  split_ifs at h ⊢ with hp
  · cases h
    rfl
  · cases hlock : pthread_mutex_lock s with
    | none => simp [hlock] at h
    | some s1 =>
      simp only [hlock, Option.some.injEq] at h
      subst h
      rfl

theorem kv_store_log_operation_disk_eq (now : Int) (d : Dir) (s : KVStore)
    (op : OperationCode) (key : CStr) (value : Option CStr) (r : Bool × KVStore × Dir)
    (h : kv_store_log_operation now d s op key value = some r) :
    kv_store_log_operation_disk now d s op key value = r.2.2 := by
  unfold kv_store_log_operation at h
  unfold kv_store_log_operation_disk
  cases hf : s.log_file with
  | none =>
    simp only [hf, Option.some.injEq] at h
    subst h
    rfl
  | some f =>
    simp only [hf] at h ⊢
    split_ifs at h ⊢ with hp ht
    · cases h
      rfl
    · split at h
      · cases h
      · rename_i hsnap
        cases h
        have hd := kv_store_create_snapshot_disk_eq now _ _ _ hsnap
        exact hd
    · cases h
      rfl

theorem log_if_enabled_disk_eq (now : Int) (d : Dir) (s : KVStore) (op : OperationCode)
    (key : CStr) (value : Option CStr) (r : KVStore × Dir)
    (h : log_if_enabled now d s op key value = some r) :
    log_if_enabled_disk now d s op key value = r.2 := by
  unfold log_if_enabled at h
  unfold log_if_enabled_disk
  split_ifs at h ⊢ with hp
  · cases hlog : kv_store_log_operation now d s op key value with
    | none => simp [hlog] at h
    | some r1 =>
      simp only [hlog, Option.some.injEq] at h
      subst h
      exact kv_store_log_operation_disk_eq now d s op key value r1 hlog
  · cases h
    rfl

/-- When `kv_store_put` returns, the directory it leaves is the directory at the time it
has stopped. -/
theorem kv_store_put_disk_eq (now : Int) (d : Dir) (s : KVStore) (key value : CStr)
    (r : Bool × KVStore × Dir) (h : kv_store_put now d s key value = some r) :
    kv_store_put_disk now d s key value = r.2.2 := by
  unfold kv_store_put at h
  unfold kv_store_put_disk
  cases hlock : pthread_mutex_lock s with
  | none => simp [hlock] at h
  | some s1 =>
    simp only [hlock] at h ⊢
    cases hex : put_existing s1.data key value with
    | some data1 =>
      simp only [hex] at h ⊢
      cases hlog : log_if_enabled now d { s1 with data := data1 } OperationCode.OP_PUT key
          (some value) with
      | none => simp [hlog] at h
      | some r1 =>
        simp only [hlog, Option.some.injEq] at h
        subst h
        exact log_if_enabled_disk_eq now d _ _ key (some value) r1 hlog
    | none =>
      simp only [hex] at h ⊢
      split_ifs at h ⊢ with hfull
      · cases h
        rfl
      · cases hem : put_empty s1.data key value with
        | some data1 =>
          simp only [hem] at h ⊢
          cases hlog : log_if_enabled now d { s1 with data := data1, size := s1.size + 1 }
              OperationCode.OP_PUT key (some value) with
          | none => simp [hlog] at h
          | some r1 =>
            simp only [hlog, Option.some.injEq] at h
            subst h
            exact log_if_enabled_disk_eq now d _ _ key (some value) r1 hlog
        | none =>
          simp only [hem, Option.some.injEq] at h
          subst h
          rfl

theorem kv_store_delete_disk_eq (now : Int) (d : Dir) (s : KVStore) (key : CStr)
    (r : Bool × KVStore × Dir) (h : kv_store_delete now d s key = some r) :
    kv_store_delete_disk now d s key = r.2.2 := by
  unfold kv_store_delete at h
  unfold kv_store_delete_disk
  cases hlock : pthread_mutex_lock s with
  | none => simp [hlock] at h
  | some s1 =>
    simp only [hlock] at h ⊢
    cases hdel : delete_scan s1.data key with
    | some data1 =>
      simp only [hdel] at h ⊢
      cases hlog : log_if_enabled now d { s1 with data := data1, size := s1.size - 1 }
          OperationCode.OP_DELETE key none with
      | none => simp [hlog] at h
      | some r1 =>
        simp only [hlog, Option.some.injEq] at h
        subst h
        exact log_if_enabled_disk_eq now d _ _ key none r1 hlog
    | none =>
      simp only [hdel, Option.some.injEq] at h
      subst h
      rfl

theorem replay_entry_disk_eq (now : Int) (w : KVStore × Dir) (e : LogEntry)
    (w1 : KVStore × Dir) (h : replay_entry now w e = some w1) :
    replay_entry_disk now w e = w1.2 := by
  unfold replay_entry at h
  unfold replay_entry_disk
  cases hop : e.op_code with
  | OP_PUT =>
    simp only [hop] at h ⊢
    split at h
    · cases h
    · rename_i hput
      cases h
      have hd := kv_store_put_disk_eq now _ _ _ _ _ hput
      exact hd
  | OP_DELETE =>
    simp only [hop] at h ⊢
    split at h
    · cases h
    · rename_i hdel
      cases h
      have hd := kv_store_delete_disk_eq now _ _ _ _ hdel
      exact hd
  | OP_GET => simp only [hop, Option.some.injEq] at h ⊢; subst h; rfl
  | OP_REPLICATE => simp only [hop, Option.some.injEq] at h ⊢; subst h; rfl
  | OP_NODE_JOIN => simp only [hop, Option.some.injEq] at h ⊢; subst h; rfl
  | OP_NODE_LEAVE => simp only [hop, Option.some.injEq] at h ⊢; subst h; rfl
  | OP_LIST_KEYS => simp only [hop, Option.some.injEq] at h ⊢; subst h; rfl

theorem replay_entries_disk_eq (now : Int) (entries : List LogEntry) (w w1 : KVStore × Dir)
    (h : replay_entries now entries w = some w1) :
    replay_entries_disk now entries w = w1.2 := by
  induction entries generalizing w with
  | nil =>
    simp only [replay_entries, Option.some.injEq] at h
    subst h
    rfl
  | cons e rest ih =>
    simp only [replay_entries] at h
    simp only [replay_entries_disk]
    cases he : replay_entry now w e with
    | none => simp [he] at h
    | some w2 =>
      simp only [he] at h ⊢
      exact ih w2 h

theorem replay_files_disk_eq (now : Int) (names : List (List Char)) (w w1 : KVStore × Dir)
    (h : replay_files now names w = some w1) :
    replay_files_disk now names w = w1.2 := by
  induction names generalizing w with
  | nil =>
    simp only [replay_files, Option.some.injEq] at h
    subst h
    rfl
  | cons name rest ih =>
    simp only [replay_files] at h
    simp only [replay_files_disk]
    cases he : replay_entries now (leading_entries (read_file w.2 name)) w with
    | none => simp [he] at h
    | some w2 =>
      simp only [he] at h ⊢
      exact ih w2 h

theorem kv_store_recover_from_logs_disk_eq (now : Int) (d : Dir) (s : KVStore)
    (r : Bool × KVStore × Dir) (h : kv_store_recover_from_logs now d s = some r) :
    kv_store_recover_from_logs_disk now d s = r.2.2 := by
  unfold kv_store_recover_from_logs at h
  unfold kv_store_recover_from_logs_disk
  split_ifs at h ⊢ with hp
  · cases h
    rfl
  · simp only at h ⊢
    split at h
    · cases h
    · rename_i hrep
      cases h
      have hd := replay_files_disk_eq now _ _ _ hrep
      exact hd

/-- When `kv_store_enable_persistence` returns, the directory it leaves is the directory
at the time it has stopped. -/
theorem kv_store_enable_persistence_disk_eq (now : Int) (d : Dir) (s : KVStore)
    (data_dir : List Char) (r : Bool × KVStore × Dir)
    (h : kv_store_enable_persistence now d s data_dir = some r) :
    kv_store_enable_persistence_disk now d s data_dir = r.2.2 := by
  unfold kv_store_enable_persistence at h
  unfold kv_store_enable_persistence_disk
  cases hlock : pthread_mutex_lock s with
  | none => simp [hlock] at h
  | some s1 =>
    simp only [hlock] at h ⊢
    split at h
    · cases h
    · rename_i hrec
      cases h
      have hd := kv_store_recover_from_logs_disk_eq now _ _ _ hrec
      exact hd

theorem kv_store_put_disk_locked (now : Int) (d : Dir) (s : KVStore) (key value : CStr)
    (hl : s.lock = true) : kv_store_put_disk now d s key value = d := by
  simp [kv_store_put_disk, pthread_mutex_lock, hl]

theorem kv_store_delete_disk_locked (now : Int) (d : Dir) (s : KVStore) (key : CStr)
    (hl : s.lock = true) : kv_store_delete_disk now d s key = d := by
  simp [kv_store_delete_disk, pthread_mutex_lock, hl]

/-- Replay on a store whose lock is held: whether it comes to its end or stops for good
at a PUT or DELETE, the directory is the one it started with. -/
theorem replay_entries_disk_locked (now : Int) (entries : List LogEntry) (s : KVStore)
    (d : Dir) (hl : s.lock = true) : replay_entries_disk now entries (s, d) = d := by
  induction entries with
  | nil => rfl
  | cons e rest ih =>
    simp only [replay_entries_disk]
    cases hop : e.op_code <;>
      simp [replay_entry, replay_entry_disk, hop, kv_store_put, kv_store_delete,
        kv_store_put_disk, kv_store_delete_disk, pthread_mutex_lock, hl, ih]

theorem replay_files_disk_locked (now : Int) (names : List (List Char)) (s : KVStore)
    (d : Dir) (hl : s.lock = true) : replay_files_disk now names (s, d) = d := by
  induction names with
  | nil => rfl
  | cons name rest ih =>
    simp only [replay_files_disk, replay_entries_locked now _ s d hl]
    by_cases hany : (leading_entries (read_file d name)).any is_mutation = true
    · rw [if_pos hany]
      exact replay_entries_disk_locked now _ s d hl
    · rw [if_neg hany]
      exact ih

theorem recover_disk_locked (now : Int) (d : Dir) (s : KVStore) (hl : s.lock = true) :
    kv_store_recover_from_logs_disk now d s = d := by
  unfold kv_store_recover_from_logs_disk
  split_ifs
  · rfl
  · cases find_latest_snapshot d with
    | none => exact replay_files_disk_locked now _ s d hl
    | some latest =>
      exact replay_files_disk_locked now _ _ d (by rw [load_snapshot_lock]; exact hl)

theorem read_file_fopen_append (d : Dir) (name other : List Char) :
    read_file (fopen_append d name) other = read_file d other := by
  unfold fopen_append
  split_ifs with h
  · rfl
  · simp only [read_file, List.find?_append]
    cases hfind : List.find? (fun f => f.1 == other) d with
    | some f => rfl
    | none =>
      simp only [Option.none_or, List.find?_cons, List.find?_nil]
      cases name == other <;> rfl

/-- C10. Recovery does no further logging. For every store, data directory and clock
reading, the data directory at the time `kv_store_enable_persistence` has stopped (it
has returned, or it is blocked for good in the lock of a replayed `kv_store_put` or
`kv_store_delete`) is the directory it was given with `operations.log` opened for
appending, and unchanged when the call blocks in its own lock.  Opening creates the file
empty when it is missing and changes nothing otherwise, so every file holds the records
it held before.  When the call returns, it returns true with that directory. -/
theorem recovery_appends_nothing (now : Int) (d : Dir) (s : KVStore)
    (data_dir : List Char) :
    kv_store_enable_persistence_disk now d s data_dir =
        (if s.lock then d else fopen_append d "operations.log".toList) ∧
      (kv_store_enable_persistence now d s data_dir = none ∨
        ∃ s1, kv_store_enable_persistence now d s data_dir =
          some (true, s1, fopen_append d "operations.log".toList)) ∧
      (fopen_append d "operations.log".toList = d ∨
        fopen_append d "operations.log".toList = d ++ [("operations.log".toList, [])]) ∧
      (∀ name, read_file (kv_store_enable_persistence_disk now d s data_dir) name =
        read_file d name) := by
  have hdisk : kv_store_enable_persistence_disk now d s data_dir =
      (if s.lock then d else fopen_append d "operations.log".toList) := by
    cases hl : s.lock with
    | true => simp [kv_store_enable_persistence_disk, pthread_mutex_lock, hl]
    | false =>
      simp only [kv_store_enable_persistence_disk, pthread_mutex_lock, hl,
        Bool.false_eq_true, if_false]
      exact recover_disk_locked now _ _ rfl
  refine ⟨hdisk, ?_, ?_, ?_⟩
  · cases hl : s.lock with
    | true =>
      left
      simp [kv_store_enable_persistence, pthread_mutex_lock, hl]
    | false =>
      simp only [kv_store_enable_persistence, pthread_mutex_lock, hl, Bool.false_eq_true,
        if_false]
      rw [recover_locked now _ _ rfl rfl]
      split_ifs with h
      · exact Or.inl rfl
      · exact Or.inr ⟨_, rfl⟩
  · unfold fopen_append
    split_ifs
    · exact Or.inl rfl
    · exact Or.inr rfl
  · intro name
    rw [hdisk]
    split_ifs
    · rfl
    · exact read_file_fopen_append d _ name

/-- C10 on two directories. The first holds `operations_5.log` with a PUT and a DELETE
record: the call never returns, and the directory where it has stopped is the one it was
given plus the empty `operations.log`.  The second holds a snapshot, an older log with a
PUT record (not replayed) and a newer log with a GET record, and `operations.log` with a
REPLICATE record: the call returns true, the store holds the snapshot's pair, and the
directory is the one it was given. -/
theorem recovery_appends_nothing_witness :
    kv_store_enable_persistence 9
        [("operations_5.log".toList,
          [Record.entry
            { op_code := OperationCode.OP_PUT, timestamp := 5, key := [107], value := [118] },
           Record.entry
            { op_code := OperationCode.OP_DELETE, timestamp := 6, key := [107], value := [] }])]
        (kv_store_init 1) "data".toList = none ∧
    kv_store_enable_persistence_disk 9
        [("operations_5.log".toList,
          [Record.entry
            { op_code := OperationCode.OP_PUT, timestamp := 5, key := [107], value := [118] },
           Record.entry
            { op_code := OperationCode.OP_DELETE, timestamp := 6, key := [107], value := [] }])]
        (kv_store_init 1) "data".toList =
      [("operations_5.log".toList,
          [Record.entry
            { op_code := OperationCode.OP_PUT, timestamp := 5, key := [107], value := [118] },
           Record.entry
            { op_code := OperationCode.OP_DELETE, timestamp := 6, key := [107], value := [] }]),
        ("operations.log".toList, [])] ∧
    (kv_store_enable_persistence 9 returning_dir (kv_store_init 1) "data".toList).map
        (fun r => (r.1, kv_store_get r.2.1 [107] [])) = some (true, some (true, [118])) ∧
    (kv_store_enable_persistence 9 returning_dir (kv_store_init 1) "data".toList).map
        (fun r => r.2.2) = some returning_dir ∧
    kv_store_enable_persistence_disk 9 returning_dir (kv_store_init 1) "data".toList =
      returning_dir :=
  ⟨by decide,
    (recovery_appends_nothing 9 _ (kv_store_init 1) "data".toList).1.trans (by decide),
    by decide, by decide,
    (recovery_appends_nothing 9 returning_dir (kv_store_init 1) "data".toList).1.trans
      (by decide)⟩

end KV
